import Mathlib

/-!
Shallow embedding of `src/main.py` (teaching_schedule_generator).

The Python source builds a schedule `[day][slot] -> {station: group or None}`
by a greedy, priority-ordered pass and validates produced schedules.

Modelling conventions:
* `Group` and `Station` identifiers are `String`s (Python strings).
* Python `dict`s whose keys are always present are modelled as total
  functions; the one lookup that can genuinely fail under the spec's
  preconditions (`station_rules[st]`) is modelled with
  `String → Option StationRule` in the `E`-suffixed variants, returning
  `Except String _` (the error carries the missing key).
* `random.randint` draws are abstracted into explicit parameters: the
  per-day station ordering produced by `resort` is passed to the builder
  as `orders : Nat → List String`; `resort` itself is modelled separately,
  with the per-station float key `randint(1,100) * (1/fill_priority)`
  computed by the program abstracted as a `String → ℚ` argument (every
  finite binary64 value is a rational, so rational-valued keys range over
  exactly the values the program can compute; float rounding may map
  distinct draw/fill_priority combinations to equal keys).
* `defaultdict(int)` reads insert keys; the key set of
  `total_assignments` is tracked in `totalKeys` because reads performed
  by `choose_group`'s key function insert keys for unchosen candidates.
* grid cells (`{station: group-or-None}` dicts whose keys are fixed at
  creation) are modelled as functions `String → Option String`.
-/

/-- `StationRule` dataclass from `src/main.py` (fields `min`, `max`,
`required`, `fill_priority`, with the same defaults). -/
structure StationRule where
  min : Int := 1
  max : Int := 6
  required : Bool := false
  fill_priority : Int := 10
deriving DecidableEq

/-- Mutable state of `build_schedule`: the grid plus the counter dicts.
`totalKeys` tracks the key set of the `total_assignments` defaultdict
(reads insert keys); the other dicts are modelled by their value
functions only (their key sets are observable through no claim). -/
structure BuildState where
  grid : Nat → Nat → String → Option String
  totalKeys : List String
  total : String → Nat
  scw : String → String → Nat
  pdsc : Nat → String → String → Nat

/-- Initial state: empty grid, zero counters (`schedule` is created with
every cell `None`; the counter dicts start empty / all-zero). -/
def initState : BuildState :=
  ⟨fun _ _ _ => none, [], fun _ => 0, fun _ _ => 0, fun _ _ _ => 0⟩

/-- `candidate_groups` from `src/main.py`: first pass filters by
not-used-in-slot, not-used-at-station-today and weekly max; if empty and
the station is required and not strict, the max-cap filter is dropped. -/
def candidate_groups (rules : String → StationRule) (strict : Bool)
    (groups : List String) (σ : BuildState) (station : String) (day : Nat)
    (used : List String) : List String :=
  let rule := rules station
  let cands := groups.filter (fun g =>
    !used.contains g && σ.pdsc day g station == 0 &&
      decide ((σ.scw g station : Int) < rule.max))
  if !cands.isEmpty then cands
  else if rule.required && !strict then
    groups.filter (fun g => !used.contains g && σ.pdsc day g station == 0)
  else []

/-- The sort key `def_key` inside `choose_group`:
`(-(max(0, min - station_counts_week[g][station])), total_assignments[g],
station_counts_week[g][station], g)`. -/
def def_key (rules : String → StationRule) (σ : BuildState)
    (station g : String) : Int × Nat × Nat × String :=
  (-(max 0 ((rules station).min - (σ.scw g station : Int))),
   σ.total g, σ.scw g station, g)

/-- Lexicographic strict comparison of the 4-tuple keys, as Python
compares tuples. The final component is Python's string comparison:
code-point-lexicographic, modelled on the character lists. -/
def keyLt (a b : Int × Nat × Nat × String) : Bool :=
  a.1 < b.1 || (a.1 == b.1 && (a.2.1 < b.2.1 || (a.2.1 == b.2.1 &&
    (a.2.2.1 < b.2.2.1 || (a.2.2.1 == b.2.2.1 &&
      a.2.2.2.data < b.2.2.2.data)))))

/-- `choose_group` from `src/main.py`: Python's `min(cands, key=def_key)`,
which keeps the earliest element among key-ties (replacement only on a
strictly smaller key). -/
def choose_group (rules : String → StationRule) (σ : BuildState)
    (cands : List String) (station : String) : Option String :=
  match cands with
  | [] => none
  | c :: cs => some (cs.foldl (fun best g =>
      if keyLt (def_key rules σ station g) (def_key rules σ station best)
      then g else best) c)

/-- Key insertion performed by the `defaultdict` reads
`total_assignments[g]` inside `def_key`: every candidate examined by
`min` gets its key inserted (value unchanged, default `0`). -/
def addKeys (keys : List String) (cands : List String) : List String :=
  cands.foldl (fun ks g => if ks.contains g then ks else ks ++ [g]) keys

/-- Point update of the grid at `(d, s, st)`. -/
def updGrid (f : Nat → Nat → String → Option String) (d s : Nat)
    (st : String) (v : Option String) : Nat → Nat → String → Option String :=
  fun d' s' st' => if d' = d ∧ s' = s ∧ st' = st then v else f d' s' st'

/-- Body of the innermost loop of `build_schedule` (`for st in
ordered_stations`): compute candidates, choose, and either record the
assignment (updating all counters and the used-in-slot set) or store
`None`. -/
def station_step (rules : String → StationRule) (strict : Bool)
    (groups : List String) (d s : Nat) (acc : BuildState × List String)
    (st : String) : BuildState × List String :=
  let σ := acc.1
  let used := acc.2
  let cands := candidate_groups rules strict groups σ st d used
  let σ' : BuildState := { σ with totalKeys := addKeys σ.totalKeys cands }
  match choose_group rules σ' cands st with
  | some g =>
    ({ σ' with
        grid := updGrid σ'.grid d s st (some g)
        total := fun g' => if g' = g then σ'.total g' + 1 else σ'.total g'
        scw := fun g' st' =>
          if g' = g ∧ st' = st then σ'.scw g' st' + 1 else σ'.scw g' st'
        pdsc := fun d' g' st' =>
          if d' = d ∧ g' = g ∧ st' = st then σ'.pdsc d' g' st' + 1
          else σ'.pdsc d' g' st' },
     g :: used)
  | none =>
    ({ σ' with grid := updGrid σ'.grid d s st none }, used)

/-- One slot (`for st in ordered_stations` with a fresh `used_in_slot`). -/
def run_slot (rules : String → StationRule) (strict : Bool)
    (groups : List String) (d : Nat) (order : List String)
    (σ : BuildState) (s : Nat) : BuildState :=
  (order.foldl (station_step rules strict groups d s) (σ, [])).1

/-- One day (`for s in range(slots_per_day)`), with that day's station
ordering `order`. -/
def run_day (rules : String → StationRule) (strict : Bool)
    (groups : List String) (slots : Nat) (order : List String)
    (σ : BuildState) (d : Nat) : BuildState :=
  (List.range slots).foldl (run_slot rules strict groups d order) σ

/-- `build_schedule` from `src/main.py`, with the per-day station
orderings (the results of the `resort()` calls) passed in as `orders`.
In every real run `orders d` is a permutation of `stations`. -/
def build_schedule (groups : List String) (days slots : Nat)
    (rules : String → StationRule) (strict : Bool)
    (orders : Nat → List String) : BuildState :=
  (List.range days).foldl
    (fun σ d => run_day rules strict groups slots (orders d) σ d) initState

/-- The returned `dict(total_assignments)`: inserted keys paired with
their values. -/
def totals_out (σ : BuildState) : List (String × Nat) :=
  σ.totalKeys.map (fun g => (g, σ.total g))

/-- The returned `{g: dict(station_counts_week[g]) for g in groups}`:
one entry per group of `groups`, valued by the weekly per-station
counts. -/
def station_counts_out (groups : List String) (σ : BuildState) :
    List (String × (String → Nat)) :=
  groups.map (fun g => (g, σ.scw g))

/-- Association-list lookup with default `0` (the observable value
semantics of the returned totals dict, cf. `total_assignments.get(g, 0)`
in the printer). -/
def lookupD (l : List (String × Nat)) (g : String) : Nat :=
  match l.find? (fun p => p.1 == g) with
  | some p => p.2
  | none => 0

/-- Number of grid cells (over `days × slots × stations`) assigned to
group `g` — what `total_assignments[g]` should count. -/
def count_total (days slots : Nat) (stations : List String)
    (grid : Nat → Nat → String → Option String) (g : String) : Nat :=
  ((List.range days).map (fun d =>
    ((List.range slots).map (fun s =>
      (stations.filter (fun st => grid d s st == some g)).length)).sum)).sum

/-- Number of grid cells at station `st` assigned to group `g` — what
`station_counts_week[g][st]` should count. -/
def count_station (days slots : Nat)
    (grid : Nat → Nat → String → Option String) (g st : String) : Nat :=
  ((List.range days).map (fun d =>
    ((List.range slots).map (fun s =>
      if grid d s st == some g then 1 else 0)).sum)).sum

/-- Innermost loop body with the `station_rules[st]` dict lookup made
explicit: a missing rule raises (Python `KeyError`), modelled as
`Except String _` carrying the missing station. -/
def station_stepE (rulesO : String → Option StationRule) (strict : Bool)
    (groups : List String) (d s : Nat)
    (acc : Except String (BuildState × List String)) (st : String) :
    Except String (BuildState × List String) :=
  match acc with
  | .error e => .error e
  | .ok σu =>
    match rulesO st with
    | none => .error st
    | some r => .ok (station_step (fun _ => r) strict groups d s σu st)

/-- One slot of the fallible builder. -/
def run_slotE (rulesO : String → Option StationRule) (strict : Bool)
    (groups : List String) (d : Nat) (order : List String)
    (acc : Except String BuildState) (s : Nat) : Except String BuildState :=
  match acc with
  | .error e => .error e
  | .ok σ => (order.foldl (station_stepE rulesO strict groups d s)
      (.ok (σ, []))).map Prod.fst

/-- One day of the fallible builder. -/
def run_dayE (rulesO : String → Option StationRule) (strict : Bool)
    (groups : List String) (slots : Nat) (order : List String)
    (acc : Except String BuildState) (d : Nat) : Except String BuildState :=
  (List.range slots).foldl (run_slotE rulesO strict groups d order) acc

/-- `build_schedule` with the rule-dict lookups explicit: `.error st`
models the `KeyError` raised when station `st` has no rule; `.ok`
is a normal return. -/
def build_scheduleE (groups : List String) (days slots : Nat)
    (rulesO : String → Option StationRule) (strict : Bool)
    (orders : Nat → List String) : Except String BuildState :=
  (List.range days).foldl
    (fun acc d => run_dayE rulesO strict groups slots (orders d) acc d)
    (.ok initState)

/-- Lexicographic `≤` on the sort keys of `resort` in `src/main.py`
(Python tuple comparison of `(not station_rules[st].required, key)`,
`False < True` for booleans). The numeric component — the binary64
float Python computes as `randint(1,100) * (1/fill_priority)` — is
supplied as `keyv`: every finite double is a rational, so an abstract
`keyv : String → ℚ` covers exactly the values a real run can produce. -/
def resort_le (rules : String → StationRule) (keyv : String → ℚ)
    (a b : String) : Bool :=
  ((!(rules a).required) < (!(rules b).required)) ||
    ((!(rules a).required) == (!(rules b).required) &&
      decide (keyv a ≤ keyv b))

/-- `resort` from `src/main.py`: Python's stable `sorted(stations, key=...)`
with the per-station computed float keys supplied as `keyv`. -/
def resort (stations : List String) (rules : String → StationRule)
    (keyv : String → ℚ) : List String :=
  stations.mergeSort (resort_le rules keyv)

/-- Outcomes of `validate_schedule`: `none` is a normal return, `some v`
an exception. `keyError` models the `KeyError` raised by
`counts[(g, st)] += 1` when `g` is not in `groups`. -/
inductive Violation where
  | dupInSlot (d s : Nat) (assigned : List String)
  | dayStationDup (g st : String) (d : Nat)
  | requiredEmpty (st : String) (d s : Nat)
  | keyError (g st : String) (d : Nat)
deriving DecidableEq

/-- Python truthiness of an optional group (`if g:`): `None` and the
empty string are falsy. -/
def truthy : Option String → Option String
  | some g => if g = "" then none else some g
  | none => none

/-- Cell access `schedule[d][s][st]` for a list-of-lists grid; ragged or
out-of-range access is defaulted to an empty cell (the validator is only
characterised on rectangular grids of the stated dimensions). -/
def cellAt (schedule : List (List (String → Option String)))
    (d s : Nat) (st : String) : Option String :=
  ((schedule.getD d []).getD s (fun _ => none)) st

/-- First check of `validate_schedule`: duplicate truthy group within a
`(day, slot)` cell (`len(set(assigned)) != len(assigned)`). -/
def check1 (schedule : List (List (String → Option String)))
    (stations : List String) : Option Violation :=
  let days := schedule.length
  let slots := (schedule.headD []).length
  (List.range days).findSome? fun d =>
    (List.range slots).findSome? fun s =>
      let assigned := stations.filterMap (fun st => truthy (cellAt schedule d s st))
      if assigned.dedup.length ≠ assigned.length
      then some (.dupInSlot d s assigned) else none

/-- Scan of one day's `(slot, station)` pairs for the second check,
threading the `counts` dict (keyed on `groups × stations`, hence the
`keyError` case for a foreign group). -/
def check2Go (getCell : Nat → String → Option String)
    (groups : List String) (d : Nat) (counts : String → String → Nat) :
    List (Nat × String) → Option Violation
  | [] => none
  | (s, st) :: rest =>
    match truthy (getCell s st) with
    | none => check2Go getCell groups d counts rest
    | some g =>
      if g ∈ groups then
        if counts g st + 1 > 1 then some (.dayStationDup g st d)
        else check2Go getCell groups d
          (fun g' st' => if g' = g ∧ st' = st then counts g' st' + 1
                         else counts g' st') rest
      else some (.keyError g st d)

/-- Second check of `validate_schedule`: some group at the same station
more than once within a day. -/
def check2 (schedule : List (List (String → Option String)))
    (groups stations : List String) : Option Violation :=
  let days := schedule.length
  let slots := (schedule.headD []).length
  (List.range days).findSome? fun d =>
    check2Go (fun s st => cellAt schedule d s st) groups d (fun _ _ => 0)
      ((List.range slots).map (fun s => stations.map (fun st => (s, st)))).flatten

/-- Third check of `validate_schedule` (only in strict mode): a required
station left `None` (`is None`, not truthiness) in some cell. The
`station_rules[st]` lookup is taken total here (precondition: every
station has a rule). -/
def check3 (schedule : List (List (String → Option String)))
    (stations : List String) (rules : String → StationRule) : Option Violation :=
  let days := schedule.length
  let slots := (schedule.headD []).length
  (List.range days).findSome? fun d =>
    (List.range slots).findSome? fun s =>
      stations.findSome? fun st =>
        if (rules st).required && (cellAt schedule d s st).isNone
        then some (.requiredEmpty st d s) else none

/-- `validate_schedule` from `src/main.py`: the three checks in source
order, stopping at the first violation; `none` = normal return. -/
def validate_schedule (schedule : List (List (String → Option String)))
    (groups stations : List String) (rules : String → StationRule)
    (strict : Bool) : Option Violation :=
  match check1 schedule stations with
  | some v => some v
  | none =>
    match check2 schedule groups stations with
    | some v => some v
    | none => if strict then check3 schedule stations rules else none

/-- Per-slot uniqueness as the spec states it: in every `(day, slot)`
cell of the grid the non-empty assigned groups have no repeats. -/
def SlotUniqueSpec (schedule : List (List (String → Option String)))
    (stations : List String) : Prop :=
  ∀ d < schedule.length, ∀ s < (schedule.headD []).length,
    (stations.filterMap (fun st => cellAt schedule d s st)).Nodup

/-- Per-day-per-station uniqueness as the spec states it: for a fixed
day and station, a group occupies the station in at most one slot. -/
def DayStationUniqueSpec (schedule : List (List (String → Option String)))
    (stations : List String) : Prop :=
  ∀ d < schedule.length, ∀ st ∈ stations, ∀ g : String,
    ((List.range (schedule.headD []).length).countP
      (fun s => cellAt schedule d s st == some g)) ≤ 1

/-- Required-station completeness as the spec states it: every required
station is non-empty in every cell of the grid. -/
def RequiredCompleteSpec (schedule : List (List (String → Option String)))
    (stations : List String) (rules : String → StationRule) : Prop :=
  ∀ d < schedule.length, ∀ s < (schedule.headD []).length, ∀ st ∈ stations,
    (rules st).required = true → cellAt schedule d s st ≠ none

/-- Cap invariant (claim C1): whenever strict mode is on or the station
is not required, the weekly per-station count stays within `max`. -/
def CapInv (rules : String → StationRule) (strict : Bool)
    (σ : BuildState) : Prop :=
  ∀ g st, (strict = true ∨ (rules st).required = false) →
    (σ.scw g st : Int) ≤ (rules st).max

/-- Bookkeeping invariant (claim C9): the weekly per-station count is
the sum of the per-day counts, and each per-day per-station count is at
most 1. -/
def DayBoundInv (days : Nat) (σ : BuildState) : Prop :=
  ∀ g st, σ.scw g st = ((List.range days).map (fun d => σ.pdsc d g st)).sum ∧
    ∀ d, σ.pdsc d g st ≤ 1

/-- Invariant for claim C3, for a fixed day `d0`: every assigned cell of
day `d0` is recorded in the per-day counter, and no group occupies the
same station in two slots of day `d0`. -/
def DayStationInv (d0 : Nat) (σ : BuildState) : Prop :=
  (∀ s st g, σ.grid d0 s st = some g → 1 ≤ σ.pdsc d0 g st) ∧
  (∀ s s' st g, σ.grid d0 s st = some g → σ.grid d0 s' st = some g → s = s')

/-- Per-slot uniqueness of a `(day, slot)` cell (claim C2). -/
def SlotUnique (σ : BuildState) (d s : Nat) : Prop :=
  ∀ st st' g, σ.grid d s st = some g → σ.grid d s st' = some g → st = st'

/-- Every group assigned in cell `(d, s)` belongs to the used-in-slot
set. -/
def SlotSub (σ : BuildState) (d s : Nat) (used : List String) : Prop :=
  ∀ st g, σ.grid d s st = some g → g ∈ used

/-- Key-set invariant of the `total_assignments` defaultdict (claim
C10): inserted keys come from `groups`, and every group with a positive
total has been inserted. -/
def KeysInv (groups : List String) (σ : BuildState) : Prop :=
  (∀ g ∈ σ.totalKeys, g ∈ groups) ∧ (∀ g, 1 ≤ σ.total g → g ∈ σ.totalKeys)

/-- Generic invariant preservation through `List.foldl`. -/
theorem foldl_inv {α β : Type _} {P : β → Prop} (f : β → α → β) :
    ∀ (l : List α) (b : β), P b → (∀ a ∈ l, ∀ b', P b' → P (f b' a)) →
      P (l.foldl f b)
  | [], _, hb, _ => hb
  | a :: l, b, hb, hstep =>
    foldl_inv f l (f b a) (hstep a (List.mem_cons_self a l) b hb)
      (fun a' ha' => hstep a' (List.mem_cons_of_mem _ ha'))

/-- Any property of the builder state preserved by every in-range
station step holds for the final state of `build_schedule`. -/
theorem build_schedule_inv {P : BuildState → Prop}
    {groups : List String} {days slots : Nat} {rules : String → StationRule}
    {strict : Bool} {orders : Nat → List String}
    (h0 : P initState)
    (hstep : ∀ d s σ used st, d < days → s < slots → st ∈ orders d → P σ →
      P (station_step rules strict groups d s (σ, used) st).1) :
    P (build_schedule groups days slots rules strict orders) := by
  unfold build_schedule
  apply foldl_inv _ _ _ h0
  intro d hd σ hσ
  unfold run_day
  apply foldl_inv _ _ _ hσ
  intro s hs σ' hσ'
  unfold run_slot
  have key : ∀ (acc : BuildState × List String), P acc.1 →
      P (((orders d).foldl (station_step rules strict groups d s) acc)).1 := by
    intro acc hacc
    apply @foldl_inv _ _ (fun pr : BuildState × List String => P pr.1) _ _ _ hacc
    intro st hst pr hpr
    exact hstep d s pr.1 pr.2 st (List.mem_range.mp hd) (List.mem_range.mp hs)
      hst hpr
  exact key (σ', []) hσ'

/-- Membership in `candidate_groups` implies membership in `groups`, not
being used in the slot, a zero per-day count, and either room under the
weekly max or the required-and-not-strict override. -/
theorem candidate_groups_spec {rules : String → StationRule} {strict : Bool}
    {groups : List String} {σ : BuildState} {station : String} {day : Nat}
    {used : List String} {g : String}
    (h : g ∈ candidate_groups rules strict groups σ station day used) :
    g ∈ groups ∧ g ∉ used ∧ σ.pdsc day g station = 0 ∧
      ((σ.scw g station : Int) < (rules station).max ∨
        ((rules station).required = true ∧ strict = false)) := by
  simp only [candidate_groups] at h
  split at h
  · rw [List.mem_filter] at h
    simp only [Bool.and_eq_true, Bool.not_eq_true', List.contains, List.elem_eq_mem,
      decide_eq_false_iff_not, beq_iff_eq, decide_eq_true_eq] at h
    exact ⟨h.1, h.2.1.1, h.2.1.2, Or.inl h.2.2⟩
  · split at h
    · rename_i hreq
      rw [List.mem_filter] at h
      simp only [Bool.and_eq_true, Bool.not_eq_true', List.contains, List.elem_eq_mem,
        decide_eq_false_iff_not, beq_iff_eq] at h
      simp only [Bool.and_eq_true, Bool.not_eq_true'] at hreq
      exact ⟨h.1, h.2.1, h.2.2, Or.inr ⟨hreq.1, hreq.2⟩⟩
    · simp at h

/-- The element selected by the fold inside `choose_group` comes from
the candidate list. -/
theorem foldl_choice_mem {α : Type _} (p : α → α → Bool) :
    ∀ (cs : List α) (c : α),
      cs.foldl (fun best g => if p g best then g else best) c ∈ c :: cs := by
  intro cs
  induction cs with
  | nil => intro c; simp
  | cons x xs ih =>
    intro c
    simp only [List.foldl_cons]
    by_cases h : p x c = true
    · simp only [h, if_true]
      rcases List.mem_cons.mp (ih x) with h' | h'
      · simp [h']
      · right; right; exact h'
    · simp only [h, if_false]
      rcases List.mem_cons.mp (ih c) with h' | h'
      · simp [h']
      · right; right; exact h'

/-- `choose_group` returns an element of its candidate list. -/
theorem choose_group_mem {rules : String → StationRule} {σ : BuildState}
    {cands : List String} {station g : String}
    (h : choose_group rules σ cands station = some g) : g ∈ cands := by
  match cands, h with
  | c :: cs, h =>
    have h' := Option.some.inj h
    subst h'
    exact foldl_choice_mem _ cs c

/-- Explicit description of the two outcomes of a station step: either a
group from the candidate list is assigned (grid cell set, all four
counters bumped, group added to the used set), or the cell is set to
`None` and only the key insertions happen. -/
theorem station_step_cases (rules : String → StationRule) (strict : Bool)
    (groups : List String) (d s : Nat) (σ : BuildState) (used : List String)
    (st : String) :
    (∃ g, g ∈ candidate_groups rules strict groups σ st d used ∧
        station_step rules strict groups d s (σ, used) st =
          (⟨updGrid σ.grid d s st (some g),
            addKeys σ.totalKeys (candidate_groups rules strict groups σ st d used),
            fun g' => if g' = g then σ.total g' + 1 else σ.total g',
            fun g' st' => if g' = g ∧ st' = st then σ.scw g' st' + 1
                          else σ.scw g' st',
            fun d' g' st' => if d' = d ∧ g' = g ∧ st' = st
                             then σ.pdsc d' g' st' + 1
                             else σ.pdsc d' g' st'⟩,
           g :: used)) ∨
      station_step rules strict groups d s (σ, used) st =
        (⟨updGrid σ.grid d s st none,
          addKeys σ.totalKeys (candidate_groups rules strict groups σ st d used),
          σ.total, σ.scw, σ.pdsc⟩, used) := by
  unfold station_step
  dsimp only
  split
  · rename_i g hc
    exact Or.inl ⟨g, choose_group_mem hc, rfl⟩
  · exact Or.inr rfl

/-- A station step preserves the cap invariant. -/
theorem capInv_step (rules : String → StationRule) (strict : Bool)
    (groups : List String) (d s : Nat) (σ : BuildState) (used : List String)
    (st : String) (hσ : CapInv rules strict σ) :
    CapInv rules strict (station_step rules strict groups d s (σ, used) st).1 := by
  rcases station_step_cases rules strict groups d s σ used st with
    ⟨g, hg, heq⟩ | heq
  · rw [heq]
    intro g' st' hcond
    simp only
    by_cases hgs : g' = g ∧ st' = st
    · rcases hgs with ⟨rfl, rfl⟩
      rw [if_pos ⟨rfl, rfl⟩]
      rcases (candidate_groups_spec hg).2.2.2 with hlt | ⟨hreq, hstrict⟩
      · push_cast
        omega
      · rcases hcond with h1 | h2
        · rw [hstrict] at h1; cases h1
        · rw [hreq] at h2; cases h2
    · rw [if_neg hgs]
      exact hσ g' st' hcond
  · rw [heq]
    intro g' st' hcond
    exact hσ g' st' hcond

/-- Claim C1: in every schedule produced by `build_schedule`, for every
group `g` and station `st`, if strict mode is on or the station is not
required, the weekly count `station_counts_week[g][st]` is at most
`station_rules[st].max` (so the cap can only be exceeded via the
required-station override with `strict = false`). Preconditions: every
rule has `max ≥ 1`. -/
theorem build_schedule_cap_respected (groups : List String)
    (days slots : Nat) (rules : String → StationRule) (strict : Bool)
    (orders : Nat → List String) (hmax : ∀ st : String, 1 ≤ (rules st).max) :
    ∀ g st, (strict = true ∨ (rules st).required = false) →
      ((build_schedule groups days slots rules strict orders).scw g st : Int)
        ≤ (rules st).max := by
  have h := @build_schedule_inv (CapInv rules strict) groups days slots rules
    strict orders
    (by
      intro g st _
      have := hmax st
      simp only [initState]
      omega)
    (by
      intro d s σ used st _ _ _ hσ
      exact capInv_step rules strict groups d s σ used st hσ)
  exact h

/-- Witness for C1 at a concrete input. -/
theorem build_schedule_cap_respected_witness :
    ((build_schedule ["G1"] 1 1 (fun _ => {}) true (fun _ => ["A"])).scw
        "G1" "A" : Int) ≤ (6 : Int) :=
  build_schedule_cap_respected ["G1"] 1 1 (fun _ => {}) true (fun _ => ["A"])
    (fun _ => (by decide : (1 : Int) ≤ 6)) "G1" "A" (Or.inl rfl)

/-- Updating a function at one in-range point shifts a range-sum by the
difference at that point. -/
theorem sum_range_update : ∀ (n d : Nat), d < n → ∀ (f f' : Nat → Nat),
    (∀ i, i ≠ d → f' i = f i) →
    ((List.range n).map f').sum + f d = ((List.range n).map f).sum + f' d := by
  intro n
  induction n with
  | zero => intro d hd; omega
  | succ n ih =>
    intro d hd f f' hagree
    rw [List.range_succ, List.map_append, List.map_append, List.sum_append,
      List.sum_append]
    by_cases hdn : d = n
    · subst hdn
      have hmap : (List.range d).map f' = (List.range d).map f :=
        List.map_congr_left (fun i hi =>
          hagree i (Nat.ne_of_lt (List.mem_range.mp hi)))
      rw [hmap]
      simp only [List.map_cons, List.map_nil, List.sum_cons, List.sum_nil]
      omega
    · have hd' : d < n := by omega
      have h := ih d hd' f f' hagree
      have hn : f' n = f n := hagree n (by omega)
      simp only [List.map_cons, List.map_nil, List.sum_cons, List.sum_nil, hn]
      omega

/-- An in-range station step preserves the day-count bookkeeping
invariant. -/
theorem dayBoundInv_step (rules : String → StationRule) (strict : Bool)
    (groups : List String) (days : Nat) (d s : Nat) (σ : BuildState)
    (used : List String) (st : String) (hd : d < days)
    (hσ : DayBoundInv days σ) :
    DayBoundInv days (station_step rules strict groups d s (σ, used) st).1 := by
  rcases station_step_cases rules strict groups d s σ used st with
    ⟨g, hg, heq⟩ | heq
  · rw [heq]
    intro g' st'
    simp only
    by_cases hgs : g' = g ∧ st' = st
    · rcases hgs with ⟨rfl, rfl⟩
      have hpd0 : σ.pdsc d g' st' = 0 := (candidate_groups_spec hg).2.2.1
      constructor
      · rw [if_pos ⟨rfl, rfl⟩]
        simp only [eq_self_iff_true, and_true]
        have hupd := sum_range_update days d hd (fun d' => σ.pdsc d' g' st')
          (fun d' => if d' = d then σ.pdsc d' g' st' + 1 else σ.pdsc d' g' st')
          (fun i hi => by simp only [if_neg hi])
        simp only [if_pos, reduceIte] at hupd
        have hsum := (hσ g' st').1
        omega
      · intro d'
        by_cases hdd : d' = d ∧ g' = g' ∧ st' = st'
        · rw [if_pos hdd]
          rcases hdd with ⟨rfl, -, -⟩
          omega
        · rw [if_neg hdd]
          exact (hσ g' st').2 d'
    · constructor
      · rw [if_neg hgs]
        have hmap : (List.range days).map (fun d' =>
            if d' = d ∧ g' = g ∧ st' = st then σ.pdsc d' g' st' + 1
            else σ.pdsc d' g' st') =
            (List.range days).map (fun d' => σ.pdsc d' g' st') :=
          List.map_congr_left (fun i _ => by
            rw [if_neg]
            intro hcon
            exact hgs ⟨hcon.2.1, hcon.2.2⟩)
        rw [hmap]
        exact (hσ g' st').1
      · intro d'
        rw [if_neg (fun hcon => hgs ⟨hcon.2.1, hcon.2.2⟩)]
        exact (hσ g' st').2 d'
  · rw [heq]
    intro g' st'
    exact hσ g' st'

/-- Claim C9: in every schedule produced by `build_schedule`, the weekly
count of any group at any station is at most the number of days (the
once-per-day-per-station rule caps each day's contribution at one, even
when the required-station override is used). -/
theorem build_schedule_weekly_count_le_days (groups : List String)
    (days slots : Nat) (rules : String → StationRule) (strict : Bool)
    (orders : Nat → List String) :
    ∀ g st,
      (build_schedule groups days slots rules strict orders).scw g st ≤ days := by
  have h := @build_schedule_inv (DayBoundInv days) groups days slots rules
    strict orders
    (by
      intro g st
      simp [initState])
    (by
      intro d s σ used st hd _ _ hσ
      exact dayBoundInv_step rules strict groups days d s σ used st hd hσ)
  intro g st
  rw [(h g st).1]
  calc ((List.range days).map
      (fun d => (build_schedule groups days slots rules strict orders).pdsc d g st)).sum
      ≤ ((List.range days).map (fun _ => 1)).sum := by
        apply List.sum_le_sum
        intro i _
        exact (h g st).2 i
    _ = days := by simp

/-- `updGrid` unfolded at a point. -/
theorem updGrid_apply (f : Nat → Nat → String → Option String) (d s : Nat)
    (st : String) (v : Option String) (d' s' : Nat) (st' : String) :
    updGrid f d s st v d' s' st' =
      if d' = d ∧ s' = s ∧ st' = st then v else f d' s' st' := rfl

/-- A station step preserves the day-station invariant of every day. -/
theorem dayStationInv_step (rules : String → StationRule) (strict : Bool)
    (groups : List String) (d0 d s : Nat) (σ : BuildState)
    (used : List String) (st : String) (hσ : DayStationInv d0 σ) :
    DayStationInv d0 (station_step rules strict groups d s (σ, used) st).1 := by
  obtain ⟨hL, hM⟩ := hσ
  rcases station_step_cases rules strict groups d s σ used st with
    ⟨g, hg, heq⟩ | heq
  · rw [heq]
    have hpd0 : σ.pdsc d g st = 0 := (candidate_groups_spec hg).2.2.1
    constructor
    · intro s' st' g' hcell
      simp only [updGrid_apply] at hcell
      simp only
      by_cases hpos : d0 = d ∧ s' = s ∧ st' = st
      · rw [if_pos hpos] at hcell
        have heqg : g = g' := Option.some.inj hcell
        rw [if_pos ⟨hpos.1, heqg.symm, hpos.2.2⟩]
        omega
      · rw [if_neg hpos] at hcell
        have hold := hL s' st' g' hcell
        split
        · omega
        · omega
    · intro s1 s2 st' g' hc1 hc2
      simp only [updGrid_apply] at hc1 hc2
      by_cases h1 : d0 = d ∧ s1 = s ∧ st' = st
      · by_cases h2 : d0 = d ∧ s2 = s ∧ st' = st
        · rw [h1.2.1, h2.2.1]
        · rw [if_pos h1] at hc1
          rw [if_neg h2] at hc2
          have heqg : g = g' := Option.some.inj hc1
          have hold := hL s2 st' g' hc2
          rw [h1.1, ← heqg, h1.2.2] at hold
          omega
      · rw [if_neg h1] at hc1
        by_cases h2 : d0 = d ∧ s2 = s ∧ st' = st
        · rw [if_pos h2] at hc2
          have heqg : g = g' := Option.some.inj hc2
          have hold := hL s1 st' g' hc1
          rw [h2.1, ← heqg, h2.2.2] at hold
          omega
        · rw [if_neg h2] at hc2
          exact hM s1 s2 st' g' hc1 hc2
  · rw [heq]
    constructor
    · intro s' st' g' hcell
      simp only [updGrid_apply] at hcell
      by_cases hpos : d0 = d ∧ s' = s ∧ st' = st
      · rw [if_pos hpos] at hcell
        cases hcell
      · rw [if_neg hpos] at hcell
        exact hL s' st' g' hcell
    · intro s1 s2 st' g' hc1 hc2
      simp only [updGrid_apply] at hc1 hc2
      by_cases h1 : d0 = d ∧ s1 = s ∧ st' = st
      · rw [if_pos h1] at hc1
        cases hc1
      · rw [if_neg h1] at hc1
        by_cases h2 : d0 = d ∧ s2 = s ∧ st' = st
        · rw [if_pos h2] at hc2
          cases hc2
        · rw [if_neg h2] at hc2
          exact hM s1 s2 st' g' hc1 hc2

/-- Claim C3: in every schedule produced by `build_schedule` (any strict
flag, override included), for a fixed day and station a group is
assigned at most once across the slots of that day. -/
theorem build_schedule_day_station_unique (groups : List String)
    (days slots : Nat) (rules : String → StationRule) (strict : Bool)
    (orders : Nat → List String) :
    ∀ d s s' st g,
      (build_schedule groups days slots rules strict orders).grid d s st = some g →
      (build_schedule groups days slots rules strict orders).grid d s' st = some g →
      s = s' := by
  intro d
  have h := @build_schedule_inv (DayStationInv d) groups days slots rules
    strict orders
    (by
      constructor
      · intro s st g hcell
        simp [initState] at hcell
      · intro s1 s2 st g hc1 hc2
        simp [initState] at hc1)
    (by
      intro d' s σ used st _ _ _ hσ
      exact dayStationInv_step rules strict groups d d' s σ used st hσ)
  intro s s' st g hc1 hc2
  exact h.2 s s' st g hc1 hc2

/-- Witness for C3 at a concrete input. -/
theorem build_schedule_day_station_unique_witness :
    (build_schedule ["G1"] 1 1 (fun _ => {}) false (fun _ => ["A"])).grid
        0 0 "A" = some "G1" ∧ (0 : Nat) = 0 := by
  refine ⟨by decide, ?_⟩
  exact build_schedule_day_station_unique ["G1"] 1 1 (fun _ => {}) false
    (fun _ => ["A"]) 0 0 0 "A" "G1" (by decide) (by decide)

/-- A station step at `(d, s)` leaves every grid cell of any other
`(day, slot)` pair unchanged. -/
theorem station_step_grid_frame (rules : String → StationRule) (strict : Bool)
    (groups : List String) (d s : Nat) (σ : BuildState) (used : List String)
    (st : String) (d' s' : Nat) (st' : String) (h : ¬(d' = d ∧ s' = s)) :
    ((station_step rules strict groups d s (σ, used) st).1).grid d' s' st' =
      σ.grid d' s' st' := by
  rcases station_step_cases rules strict groups d s σ used st with
    ⟨g, _, heq⟩ | heq <;>
    rw [heq] <;>
    exact if_neg (fun hc => h ⟨hc.1, hc.2.1⟩)

/-- One station step preserves `SlotSub` and `SlotUnique` of the cell it
writes to. -/
theorem slotSub_unique_step (rules : String → StationRule) (strict : Bool)
    (groups : List String) (d s : Nat) (σ : BuildState) (used : List String)
    (st : String) (hsub : SlotSub σ d s used) (huniq : SlotUnique σ d s) :
    SlotSub (station_step rules strict groups d s (σ, used) st).1 d s
        (station_step rules strict groups d s (σ, used) st).2 ∧
      SlotUnique (station_step rules strict groups d s (σ, used) st).1 d s := by
  rcases station_step_cases rules strict groups d s σ used st with
    ⟨g, hg, heq⟩ | heq
  · rw [heq]
    have hnotused : g ∉ used := (candidate_groups_spec hg).2.1
    constructor
    · intro st'' g' hcell
      simp only [updGrid_apply, eq_self_iff_true, true_and] at hcell
      by_cases hpos : st'' = st
      · rw [if_pos hpos] at hcell
        have heqg : g = g' := Option.some.inj hcell
        simp only
        rw [← heqg]
        exact List.mem_cons_self g used
      · rw [if_neg hpos] at hcell
        exact List.mem_cons_of_mem g (hsub st'' g' hcell)
    · intro st1 st2 g' hc1 hc2
      simp only [updGrid_apply, eq_self_iff_true, true_and] at hc1 hc2
      by_cases h1 : st1 = st
      · by_cases h2 : st2 = st
        · rw [h1, h2]
        · rw [if_pos h1] at hc1
          rw [if_neg h2] at hc2
          have heqg : g = g' := Option.some.inj hc1
          exact absurd (by rw [heqg]; exact hsub st2 g' hc2) hnotused
      · rw [if_neg h1] at hc1
        by_cases h2 : st2 = st
        · rw [if_pos h2] at hc2
          have heqg : g = g' := Option.some.inj hc2
          exact absurd (by rw [heqg]; exact hsub st1 g' hc1) hnotused
        · rw [if_neg h2] at hc2
          exact huniq st1 st2 g' hc1 hc2
  · rw [heq]
    constructor
    · intro st'' g' hcell
      simp only [updGrid_apply, eq_self_iff_true, true_and] at hcell
      by_cases hpos : st'' = st
      · rw [if_pos hpos] at hcell
        cases hcell
      · rw [if_neg hpos] at hcell
        exact hsub st'' g' hcell
    · intro st1 st2 g' hc1 hc2
      simp only [updGrid_apply, eq_self_iff_true, true_and] at hc1 hc2
      by_cases h1 : st1 = st
      · rw [if_pos h1] at hc1
        cases hc1
      · rw [if_neg h1] at hc1
        by_cases h2 : st2 = st
        · rw [if_pos h2] at hc2
          cases hc2
        · rw [if_neg h2] at hc2
          exact huniq st1 st2 g' hc1 hc2

/-- The station fold of one slot preserves `SlotSub` together with
`SlotUnique`. -/
theorem slot_fold_unique (rules : String → StationRule) (strict : Bool)
    (groups : List String) (d s : Nat) :
    ∀ (order : List String) (acc : BuildState × List String),
      SlotSub acc.1 d s acc.2 → SlotUnique acc.1 d s →
      SlotSub (order.foldl (station_step rules strict groups d s) acc).1 d s
          (order.foldl (station_step rules strict groups d s) acc).2 ∧
        SlotUnique (order.foldl (station_step rules strict groups d s) acc).1 d s := by
  intro order
  induction order with
  | nil => intro acc hsub huniq; exact ⟨hsub, huniq⟩
  | cons st rest ih =>
    intro acc hsub huniq
    have hstep := slotSub_unique_step rules strict groups d s acc.1 acc.2 st
      hsub huniq
    exact ih _ hstep.1 hstep.2

/-- A slot run started on an all-`None` cell yields a duplicate-free
cell. -/
theorem run_slot_unique (rules : String → StationRule) (strict : Bool)
    (groups : List String) (d : Nat) (order : List String) (σ : BuildState)
    (s : Nat) (hnone : ∀ st, σ.grid d s st = none) :
    SlotUnique (run_slot rules strict groups d order σ s) d s := by
  unfold run_slot
  refine (slot_fold_unique rules strict groups d s order (σ, []) ?_ ?_).2
  · intro st g hcell
    rw [hnone st] at hcell
    cases hcell
  · intro st1 st2 g hc1 hc2
    rw [hnone st1] at hc1
    cases hc1

/-- A slot run leaves the grid of every other `(day, slot)` pair
unchanged. -/
theorem run_slot_grid_frame (rules : String → StationRule) (strict : Bool)
    (groups : List String) (d : Nat) (order : List String) (σ : BuildState)
    (s : Nat) (d' s' : Nat) (st' : String) (h : ¬(d' = d ∧ s' = s)) :
    (run_slot rules strict groups d order σ s).grid d' s' st' =
      σ.grid d' s' st' := by
  unfold run_slot
  apply @foldl_inv _ _
    (fun pr : BuildState × List String =>
      pr.1.grid d' s' st' = σ.grid d' s' st') _ _ _ rfl
  intro st _ pr hpr
  rw [station_step_grid_frame rules strict groups d s pr.1 pr.2 st d' s' st' h]
  exact hpr

/-- A day run leaves the grid of every other day unchanged. -/
theorem run_day_grid_frame (rules : String → StationRule) (strict : Bool)
    (groups : List String) (slots : Nat) (order : List String)
    (σ : BuildState) (d : Nat) (d' s' : Nat) (st' : String) (h : d' ≠ d) :
    (run_day rules strict groups slots order σ d).grid d' s' st' =
      σ.grid d' s' st' := by
  unfold run_day
  apply @foldl_inv _ _
    (fun τ : BuildState => τ.grid d' s' st' = σ.grid d' s' st') _ _ _ rfl
  intro s _ τ hτ
  rw [run_slot_grid_frame rules strict groups d order τ s d' s' st'
    (fun hc => h hc.1)]
  exact hτ

/-- Folding the slots of one day: if all listed slots start all-`None`
and every slot of the day is duplicate-free, this is preserved. -/
theorem slots_fold_slotUnique (rules : String → StationRule) (strict : Bool)
    (groups : List String) (d : Nat) (order : List String) :
    ∀ (sl : List Nat), sl.Nodup → ∀ σ : BuildState,
      (∀ s ∈ sl, ∀ st, σ.grid d s st = none) →
      (∀ s, SlotUnique σ d s) →
      ∀ s, SlotUnique (sl.foldl (run_slot rules strict groups d order) σ) d s := by
  intro sl
  induction sl with
  | nil => intro _ σ _ huniq s; exact huniq s
  | cons s0 tl ih =>
    intro hnodup σ hnone huniq s
    simp only [List.foldl_cons]
    have hnodup' := List.nodup_cons.mp hnodup
    apply ih hnodup'.2
    · intro s' hs' st
      rw [run_slot_grid_frame rules strict groups d order σ s0 d s' st
        (fun hc => (hnodup'.1) (hc.2 ▸ hs'))]
      exact hnone s' (List.mem_cons_of_mem s0 hs') st
    · intro s'
      by_cases hss : s' = s0
      · subst hss
        exact run_slot_unique rules strict groups d order σ s'
          (hnone s' (List.mem_cons_self s' tl))
      · intro st1 st2 g hc1 hc2
        rw [run_slot_grid_frame rules strict groups d order σ s0 d s' st1
          (fun hc => hss hc.2)] at hc1
        rw [run_slot_grid_frame rules strict groups d order σ s0 d s' st2
          (fun hc => hss hc.2)] at hc2
        exact huniq s' st1 st2 g hc1 hc2

/-- Folding days: slot uniqueness of every cell is established
day-by-day. -/
theorem days_fold_slotUnique (rules : String → StationRule) (strict : Bool)
    (groups : List String) (slots : Nat) (orders : Nat → List String) :
    ∀ (dl : List Nat), dl.Nodup → ∀ σ : BuildState,
      (∀ d ∈ dl, ∀ s st, σ.grid d s st = none) →
      (∀ d s, SlotUnique σ d s) →
      ∀ d s, SlotUnique
        (dl.foldl (fun σ' d' => run_day rules strict groups slots (orders d') σ' d') σ)
        d s := by
  intro dl
  induction dl with
  | nil => intro _ σ _ huniq d s; exact huniq d s
  | cons d0 tl ih =>
    intro hnodup σ hnone huniq d s
    simp only [List.foldl_cons]
    have hnodup' := List.nodup_cons.mp hnodup
    apply ih hnodup'.2
    · intro d' hd' s' st
      rw [run_day_grid_frame rules strict groups slots (orders d0) σ d0 d' s' st
        (fun hc => (hnodup'.1) (hc ▸ hd'))]
      exact hnone d' (List.mem_cons_of_mem d0 hd') s' st
    · intro d' s'
      by_cases hdd : d' = d0
      · subst hdd
        unfold run_day
        exact slots_fold_slotUnique rules strict groups d' (orders d')
          (List.range slots) (List.nodup_range slots) σ
          (fun s' _ st => hnone d' (List.mem_cons_self d' tl) s' st)
          (fun s'' st1 st2 g hc1 hc2 => huniq d' s'' st1 st2 g hc1 hc2) s'
      · intro st1 st2 g hc1 hc2
        rw [run_day_grid_frame rules strict groups slots (orders d0) σ d0 d' s' st1
          hdd] at hc1
        rw [run_day_grid_frame rules strict groups slots (orders d0) σ d0 d' s' st2
          hdd] at hc2
        exact huniq d' s' st1 st2 g hc1 hc2

/-- Claim C2: every schedule produced by `build_schedule` (any strict
flag) assigns no group to more than one station within a `(day, slot)`
cell. -/
theorem build_schedule_slot_unique (groups : List String) (days slots : Nat)
    (rules : String → StationRule) (strict : Bool)
    (orders : Nat → List String) :
    ∀ d s st st' g,
      (build_schedule groups days slots rules strict orders).grid d s st = some g →
      (build_schedule groups days slots rules strict orders).grid d s st' = some g →
      st = st' := by
  intro d s st st' g hc1 hc2
  have h := days_fold_slotUnique rules strict groups slots orders
    (List.range days) (List.nodup_range days) initState
    (fun _ _ _ _ => rfl) (fun _ _ _ _ _ hc => by cases hc) d s
  exact h st st' g hc1 hc2

/-- Witness for C2 at a concrete input. -/
theorem build_schedule_slot_unique_witness :
    (build_schedule ["G1"] 1 1 (fun _ => {}) false (fun _ => ["A"])).grid
        0 0 "A" = some "G1" ∧ "A" = "A" := by
  refine ⟨by decide, ?_⟩
  exact build_schedule_slot_unique ["G1"] 1 1 (fun _ => {}) false
    (fun _ => ["A"]) 0 0 "A" "A" "G1" (by decide) (by decide)

/-- Membership in `addKeys`: the old keys plus the examined
candidates. -/
theorem mem_addKeys : ∀ (cands keys : List String) (g : String),
    g ∈ addKeys keys cands ↔ g ∈ keys ∨ g ∈ cands := by
  intro cands
  induction cands with
  | nil =>
    intro keys g
    simp [addKeys]
  | cons c cs ih =>
    intro keys g
    unfold addKeys at ih ⊢
    simp only [List.foldl_cons]
    by_cases hc : keys.contains c
    · rw [if_pos hc]
      rw [ih keys g]
      constructor
      · rintro (h | h)
        · exact Or.inl h
        · exact Or.inr (List.mem_cons_of_mem c h)
      · rintro (h | h)
        · exact Or.inl h
        · rcases List.mem_cons.mp h with rfl | h
          · exact Or.inl (List.contains_iff_exists_mem_beq.mp hc |>.elim
              (fun a ha => by
                have : g = a := by
                  have := ha.2
                  simpa using this
                rw [this]
                exact ha.1))
          · exact Or.inr h
    · rw [if_neg hc]
      rw [ih (keys ++ [c]) g]
      simp only [List.mem_append, List.mem_singleton, List.mem_cons]
      tauto

/-- A station step preserves the key-set invariant. -/
theorem keysInv_step (rules : String → StationRule) (strict : Bool)
    (groups : List String) (d s : Nat) (σ : BuildState) (used : List String)
    (st : String) (hσ : KeysInv groups σ) :
    KeysInv groups (station_step rules strict groups d s (σ, used) st).1 := by
  obtain ⟨hsub, hpos⟩ := hσ
  have hcsub : ∀ g ∈ candidate_groups rules strict groups σ st d used,
      g ∈ groups := fun g hg => (candidate_groups_spec hg).1
  rcases station_step_cases rules strict groups d s σ used st with
    ⟨g, hg, heq⟩ | heq
  · rw [heq]
    constructor
    · intro g' hg'
      simp only at hg'
      rcases (mem_addKeys _ _ _).mp hg' with h | h
      · exact hsub g' h
      · exact hcsub g' h
    · intro g' hg'
      simp only at hg' ⊢
      by_cases hgg : g' = g
      · exact (mem_addKeys _ _ _).mpr (Or.inr (hgg ▸ hg))
      · rw [if_neg hgg] at hg'
        exact (mem_addKeys _ _ _).mpr (Or.inl (hpos g' hg'))
  · rw [heq]
    constructor
    · intro g' hg'
      simp only at hg'
      rcases (mem_addKeys _ _ _).mp hg' with h | h
      · exact hsub g' h
      · exact hcsub g' h
    · intro g' hg'
      simp only at hg' ⊢
      exact (mem_addKeys _ _ _).mpr (Or.inl (hpos g' hg'))

/-- Counterexample to claim C10 as stated: with two groups and one
station for one slot, only `G1` is assigned, yet `G2` — examined as a
candidate by `choose_group`'s key function — ends up as a key of the
returned totals dict, mapped to `0` (and indeed owns no grid cell). -/
theorem totals_keys_counterexample :
    "G2" ∈ (build_schedule ["G1", "G2"] 1 1 (fun _ => {}) false
        (fun _ => ["A"])).totalKeys ∧
      (build_schedule ["G1", "G2"] 1 1 (fun _ => {}) false
        (fun _ => ["A"])).total "G2" = 0 ∧
      count_total 1 1 ["A"] (build_schedule ["G1", "G2"] 1 1 (fun _ => {})
        false (fun _ => ["A"])).grid "G2" = 0 := by
  refine ⟨by decide, by decide, by decide⟩

/-- The key-set invariant holds for the final builder state. -/
theorem build_schedule_keysInv (groups : List String) (days slots : Nat)
    (rules : String → StationRule) (strict : Bool)
    (orders : Nat → List String) :
    KeysInv groups (build_schedule groups days slots rules strict orders) :=
  build_schedule_inv
    (by
      constructor
      · intro g hg
        cases hg
      · intro g hg
        simp [initState] at hg)
    (by
      intro d s σ used st _ _ _ hσ
      exact keysInv_step rules strict groups d s σ used st hσ)

/-- Amended claim C10: the keys of the returned `totalAssignments` dict
all come from `groups` and include every group with at least one
assignment — but may also include zero-valued entries for unchosen
candidates — while the returned `stationCounts` has exactly the groups
as keys. -/
theorem build_schedule_result_keys (groups : List String) (days slots : Nat)
    (rules : String → StationRule) (strict : Bool)
    (orders : Nat → List String) :
    (∀ g ∈ (totals_out (build_schedule groups days slots rules strict
        orders)).map Prod.fst, g ∈ groups) ∧
      (∀ g, 1 ≤ (build_schedule groups days slots rules strict orders).total g →
        g ∈ (totals_out (build_schedule groups days slots rules strict
          orders)).map Prod.fst) ∧
      (station_counts_out groups (build_schedule groups days slots rules
        strict orders)).map Prod.fst = groups := by
  have h := build_schedule_keysInv groups days slots rules strict orders
  have hkeys : (totals_out (build_schedule groups days slots rules strict
      orders)).map Prod.fst =
      (build_schedule groups days slots rules strict orders).totalKeys := by
    unfold totals_out
    rw [List.map_map]
    exact List.map_id _
  refine ⟨?_, ?_, ?_⟩
  · rw [hkeys]
    exact h.1
  · intro g hg
    rw [hkeys]
    exact h.2 g hg
  · unfold station_counts_out
    rw [List.map_map]
    exact List.map_id _

/-- Witness for the amended C10 at a concrete input. -/
theorem build_schedule_result_keys_witness :
    1 ≤ (build_schedule ["G1"] 1 1 (fun _ => {}) false (fun _ => ["A"])).total
        "G1" ∧
      "G1" ∈ (totals_out (build_schedule ["G1"] 1 1 (fun _ => {}) false
        (fun _ => ["A"]))).map Prod.fst :=
  ⟨by decide,
   (build_schedule_result_keys ["G1"] 1 1 (fun _ => {}) false
     (fun _ => ["A"])).2.1 "G1" (by decide)⟩

/-- `keyLt` unfolded to its propositional lexicographic meaning. -/
theorem keyLt_iff (a b : Int × Nat × Nat × String) :
    keyLt a b = true ↔
      a.1 < b.1 ∨ (a.1 = b.1 ∧ (a.2.1 < b.2.1 ∨ (a.2.1 = b.2.1 ∧
        (a.2.2.1 < b.2.2.1 ∨ (a.2.2.1 = b.2.2.1 ∧
          a.2.2.2.data < b.2.2.2.data))))) := by
  simp [keyLt, Bool.or_eq_true, Bool.and_eq_true, beq_iff_eq,
    decide_eq_true_eq]

/-- Transitivity of the tuple comparison. -/
theorem keyLt_trans {a b c : Int × Nat × Nat × String}
    (h1 : keyLt a b = true) (h2 : keyLt b c = true) : keyLt a c = true := by
  rw [keyLt_iff] at h1 h2 ⊢
  rcases h1 with h1 | ⟨e1, h1⟩ <;> rcases h2 with h2 | ⟨e2, h2⟩
  · exact Or.inl (lt_trans h1 h2)
  · exact Or.inl (e2 ▸ h1)
  · exact Or.inl (e1 ▸ h2)
  · refine Or.inr ⟨e1.trans e2, ?_⟩
    rcases h1 with h1 | ⟨f1, h1⟩ <;> rcases h2 with h2 | ⟨f2, h2⟩
    · exact Or.inl (lt_trans h1 h2)
    · exact Or.inl (f2 ▸ h1)
    · exact Or.inl (f1 ▸ h2)
    · refine Or.inr ⟨f1.trans f2, ?_⟩
      rcases h1 with h1 | ⟨g1, h1⟩ <;> rcases h2 with h2 | ⟨g2, h2⟩
      · exact Or.inl (lt_trans h1 h2)
      · exact Or.inl (g2 ▸ h1)
      · exact Or.inl (g1 ▸ h2)
      · exact Or.inr ⟨g1.trans g2, lt_trans h1 h2⟩

/-- Totality of the tuple comparison on tuples with distinct final
components. -/
theorem keyLt_total_of_last_ne {a b : Int × Nat × Nat × String}
    (h : a.2.2.2.data ≠ b.2.2.2.data) :
    keyLt a b = true ∨ keyLt b a = true := by
  rw [keyLt_iff, keyLt_iff]
  rcases lt_trichotomy a.1 b.1 with h1 | h1 | h1
  · exact Or.inl (Or.inl h1)
  · rcases lt_trichotomy a.2.1 b.2.1 with h2 | h2 | h2
    · exact Or.inl (Or.inr ⟨h1, Or.inl h2⟩)
    · rcases lt_trichotomy a.2.2.1 b.2.2.1 with h3 | h3 | h3
      · exact Or.inl (Or.inr ⟨h1, Or.inr ⟨h2, Or.inl h3⟩⟩)
      · rcases lt_trichotomy a.2.2.2.data b.2.2.2.data with h4 | h4 | h4
        · exact Or.inl (Or.inr ⟨h1, Or.inr ⟨h2, Or.inr ⟨h3, h4⟩⟩⟩)
        · exact absurd h4 h
        · exact Or.inr (Or.inr ⟨h1.symm, Or.inr ⟨h2.symm, Or.inr ⟨h3.symm, h4⟩⟩⟩)
      · exact Or.inr (Or.inr ⟨h1.symm, Or.inr ⟨h2.symm, Or.inl h3⟩⟩)
    · exact Or.inr (Or.inr ⟨h1.symm, Or.inl h2⟩)
  · exact Or.inr (Or.inl h1)

/-- Totality of the `def_key` comparison for distinct groups (the key's
final component is the group identifier itself). -/
theorem def_key_total (rules : String → StationRule) (σ : BuildState)
    (station : String) {g g' : String} (hne : g ≠ g') :
    keyLt (def_key rules σ station g) (def_key rules σ station g') = true ∨
      keyLt (def_key rules σ station g') (def_key rules σ station g) = true :=
  keyLt_total_of_last_ne (fun h => hne (String.ext h))

/-- The fold inside `choose_group` computes a strict minimum of the
`def_key` ordering over the candidates. -/
theorem foldl_min_spec (rules : String → StationRule) (σ : BuildState)
    (station : String) :
    ∀ (cs : List String) (c : String),
      ∃ r, cs.foldl (fun best g =>
          if keyLt (def_key rules σ station g) (def_key rules σ station best)
          then g else best) c = r ∧ r ∈ c :: cs ∧
        ∀ g' ∈ c :: cs, g' ≠ r →
          keyLt (def_key rules σ station r) (def_key rules σ station g') = true := by
  intro cs
  induction cs with
  | nil =>
    intro c
    refine ⟨c, rfl, List.mem_cons_self c [], ?_⟩
    intro g' hg' hner
    rcases List.mem_cons.mp hg' with rfl | hg'
    · exact absurd rfl hner
    · cases hg'
  | cons x xs ih =>
    intro c
    simp only [List.foldl_cons]
    by_cases hxc : keyLt (def_key rules σ station x)
        (def_key rules σ station c) = true
    · rw [if_pos hxc]
      obtain ⟨r, hfold, hmem, hmin⟩ := ih x
      refine ⟨r, hfold, ?_, ?_⟩
      · rcases List.mem_cons.mp hmem with rfl | h
        · exact List.mem_cons_of_mem c (List.mem_cons_self r xs)
        · exact List.mem_cons_of_mem c (List.mem_cons_of_mem x h)
      · intro g' hg' hner
        rcases List.mem_cons.mp hg' with rfl | hg'
        · by_cases hrx : r = x
          · rw [hrx]
            exact hxc
          · exact keyLt_trans
              (hmin x (List.mem_cons_self x xs) (fun h => hrx h.symm)) hxc
        · exact hmin g' hg' hner
    · rw [if_neg hxc]
      obtain ⟨r, hfold, hmem, hmin⟩ := ih c
      refine ⟨r, hfold, ?_, ?_⟩
      · rcases List.mem_cons.mp hmem with rfl | h
        · exact List.mem_cons_self r (x :: xs)
        · exact List.mem_cons_of_mem c (List.mem_cons_of_mem x h)
      · intro g' hg' hner
        rcases List.mem_cons.mp hg' with rfl | hg'
        · exact hmin g' (List.mem_cons_self g' xs) hner
        · rcases List.mem_cons.mp hg' with rfl | hg'
          · by_cases hrc : r = c
            · rcases def_key_total rules σ station
                (fun h : r = g' => hner h.symm) with h | h
              · exact h
              · rw [hrc] at h
                exact absurd h hxc
            · have h1 := hmin c (List.mem_cons_self c xs) (fun h => hrc h.symm)
              rcases def_key_total rules σ station
                  (fun h : r = g' => hner h.symm) with h | h
              · exact h
              · exact absurd (keyLt_trans h h1) hxc
          · exact hmin g' (List.mem_cons_of_mem c hg') hner

/-- Claim C5: for a non-empty candidate list, `choose_group` returns
exactly the candidate minimal under the lexicographic key (deficit
toward `min` largest first, then total assignments, then this-station
count, then group identifier); the returned group beats every other
candidate strictly, and the function is deterministic in its
arguments. -/
theorem choose_group_minimal (rules : String → StationRule) (σ : BuildState)
    (cands : List String) (station : String) (hne : cands ≠ []) :
    ∃ g, choose_group rules σ cands station = some g ∧ g ∈ cands ∧
      ∀ g' ∈ cands, g' ≠ g →
        keyLt (def_key rules σ station g) (def_key rules σ station g') = true := by
  match cands, hne with
  | c :: cs, _ =>
    obtain ⟨r, hfold, hmem, hmin⟩ := foldl_min_spec rules σ station cs c
    exact ⟨r, by rw [choose_group, hfold], hmem, hmin⟩

/-- Witness for C5 at a concrete input: among `["G2", "G1"]` with all
counters at zero, the smaller identifier `G1` wins. -/
theorem choose_group_minimal_witness :
    ∃ g, choose_group (fun _ => {}) initState ["G2", "G1"] "A" = some g ∧
      g ∈ ["G2", "G1"] ∧
      ∀ g' ∈ ["G2", "G1"], g' ≠ g →
        keyLt (def_key (fun _ => {}) initState "A" g)
          (def_key (fun _ => {}) initState "A" g') = true :=
  choose_group_minimal (fun _ => {}) initState ["G2", "G1"] "A" (by decide)

/-- `mergeSort` on a two-element list. -/
theorem mergeSort_pair {α : Type _} (le : α → α → Bool) (a b : α) :
    [a, b].mergeSort le = if le a b then [a, b] else [b, a] := by
  rw [List.mergeSort.eq_3]
  simp only [List.splitInTwo, List.splitAt, List.splitAt.go, List.length_cons,
    List.length_nil, List.reverse_cons, List.reverse_nil, List.nil_append]
  rw [List.mergeSort.eq_2, List.mergeSort.eq_2]
  by_cases h : le a b
  · simp [List.merge, h]
  · simp [List.merge, h]

/-- Totality of the `resort` comparison. -/
theorem resort_le_total (rules : String → StationRule) (keyv : String → ℚ) :
    ∀ a b, (resort_le rules keyv a b || resort_le rules keyv b a) = true := by
  intro a b
  simp only [resort_le, Bool.or_eq_true, Bool.and_eq_true, beq_iff_eq,
    decide_eq_true_eq]
  by_cases hAB : (!(rules a).required) = (!(rules b).required)
  · rcases le_total (keyv a) (keyv b) with h | h
    · exact Or.inl (Or.inr ⟨hAB, h⟩)
    · exact Or.inr (Or.inr ⟨hAB.symm, h⟩)
  · rcases Bool.eq_false_or_eq_true (!(rules a).required) with ha | ha <;>
      rcases Bool.eq_false_or_eq_true (!(rules b).required) with hb | hb
    · exact absurd (ha.trans hb.symm) hAB
    · exact Or.inr (Or.inl (by rw [ha, hb]; exact Bool.false_lt_true))
    · exact Or.inl (Or.inl (by rw [ha, hb]; exact Bool.false_lt_true))
    · exact absurd (ha.trans hb.symm) hAB

/-- Transitivity of the `resort` comparison. -/
theorem resort_le_trans (rules : String → StationRule) (keyv : String → ℚ) :
    ∀ a b c, resort_le rules keyv a b → resort_le rules keyv b c →
      resort_le rules keyv a c := by
  intro a b c h1 h2
  simp only [resort_le, Bool.or_eq_true, Bool.and_eq_true, beq_iff_eq,
    decide_eq_true_eq] at h1 h2 ⊢
  rcases h1 with h1 | ⟨e1, h1⟩ <;> rcases h2 with h2 | ⟨e2, h2⟩
  · exact Or.inl (lt_trans h1 h2)
  · exact Or.inl (e2 ▸ h1)
  · exact Or.inl (e1 ▸ h2)
  · exact Or.inr ⟨e1.trans e2, le_trans h1 h2⟩

/-- Counterexample to claim C6 as stated: stations `A` (fillPriority 1)
and `B` (fillPriority 2), both non-required, drawing the same random
value 100. The float keys Python computes are `100 * (1/1) = 100.0` and
`100 * (1/2) = 50.0` — both exactly representable in binary64, so the
rational keys below are the program's keys with no rounding slack — and
`resort` orders `B` before `A`: the station with the *lower*
fillPriority comes later, not earlier. -/
theorem resort_priority_counterexample :
    resort ["A", "B"]
        (fun st => if st = "A" then { fill_priority := 1 }
                   else { fill_priority := 2 })
        (fun st => if st = "A" then (100 : ℚ) else 50) = ["B", "A"] ∧
      ((fun st => if st = "A" then (100 : ℚ) else 50) "A") = 100 * (1 / 1) ∧
      ((fun st => if st = "A" then (100 : ℚ) else 50) "B") = 100 * (1 / 2) ∧
      ((fun st => if st = "A" then ({ fill_priority := 1 } : StationRule)
          else { fill_priority := 2 }) "A").fill_priority <
        ((fun st => if st = "A" then ({ fill_priority := 1 } : StationRule)
          else { fill_priority := 2 }) "B").fill_priority ∧
      ((fun st => if st = "A" then ({ fill_priority := 1 } : StationRule)
          else { fill_priority := 2 }) "A").required =
        ((fun st => if st = "A" then ({ fill_priority := 1 } : StationRule)
          else { fill_priority := 2 }) "B").required := by
  refine ⟨?_, by norm_num, ?_, by decide, by decide⟩
  case refine_2 =>
    show (if ("B" : String) = "A" then (100 : ℚ) else 50) = 100 * (1 / 2)
    rw [if_neg (by decide : ¬("B" : String) = "A")]
    norm_num
  rw [resort, mergeSort_pair]
  rw [if_neg]
  intro hcon
  simp only [resort_le, Bool.or_eq_true, Bool.and_eq_true, beq_iff_eq,
    decide_eq_true_eq] at hcon
  simp at hcon
  norm_num at hcon

/-- Amended claim C6: among stations with the same `required` flag, the
per-day station ordering is ascending in the float key
`randint(1,100) * (1/fillPriority)` that the program computes, with key
ties kept in input order (the sort is stable): a station whose computed
key is strictly smaller is ordered earlier, and key-tied stations keep
their relative input positions. For two stations with the same positive
draw, the one with the strictly higher `fillPriority` has a
smaller-or-equal key (exact division is strictly antitone in
`fillPriority` and float rounding is monotone), so it sorts earlier
whenever rounding keeps the two keys distinct, and falls back to input
order when rounding collapses them (possible only at enormous
`fillPriority` values, e.g. `2^54` vs `2^54 + 1`); a lower
`fillPriority` never sorts a station earlier than an equal-draw peer. -/
theorem resort_key_order (stations : List String)
    (rules : String → StationRule) (keyv : String → ℚ) (st1 st2 : String)
    (h1 : st1 ∈ stations) (h2 : st2 ∈ stations)
    (hreq : (rules st1).required = (rules st2).required) :
    (keyv st1 < keyv st2 →
      (resort stations rules keyv).indexOf st1 <
        (resort stations rules keyv).indexOf st2) ∧
      (keyv st1 = keyv st2 → [st1, st2].Sublist stations →
        [st1, st2].Sublist (resort stations rules keyv)) := by
  constructor
  · intro hqlt
    have hperm : (resort stations rules keyv).Perm stations :=
      List.mergeSort_perm stations (resort_le rules keyv)
    have hmem1 : st1 ∈ resort stations rules keyv := hperm.mem_iff.mpr h1
    have hmem2 : st2 ∈ resort stations rules keyv := hperm.mem_iff.mpr h2
    have hsorted : (resort stations rules keyv).Pairwise
        (fun a b => resort_le rules keyv a b) :=
      List.sorted_mergeSort (resort_le_trans rules keyv)
        (resort_le_total rules keyv) stations
    have hnotle : ¬ (resort_le rules keyv st2 st1 = true) := by
      simp only [resort_le, Bool.or_eq_true, Bool.and_eq_true, beq_iff_eq,
        decide_eq_true_eq]
      rintro (hb | ⟨-, hq⟩)
      · have heqb : (!(rules st2).required) = (!(rules st1).required) := by
          rw [hreq]
        rw [heqb] at hb
        exact lt_irrefl _ hb
      · exact absurd hqlt (not_lt.mpr hq)
    have hne12 : st1 ≠ st2 := by
      intro h
      rw [h] at hqlt
      exact lt_irrefl _ hqlt
    have hi1 : (resort stations rules keyv).indexOf st1 <
        (resort stations rules keyv).length := List.indexOf_lt_length.mpr hmem1
    have hi2 : (resort stations rules keyv).indexOf st2 <
        (resort stations rules keyv).length := List.indexOf_lt_length.mpr hmem2
    have hget1 : (resort stations rules keyv).get
        ⟨(resort stations rules keyv).indexOf st1, hi1⟩ = st1 :=
      List.indexOf_get hi1
    have hget2 : (resort stations rules keyv).get
        ⟨(resort stations rules keyv).indexOf st2, hi2⟩ = st2 :=
      List.indexOf_get hi2
    have hidxne : (resort stations rules keyv).indexOf st1 ≠
        (resort stations rules keyv).indexOf st2 := by
      intro h
      apply hne12
      rw [← hget1, ← hget2]
      congr 1
      exact Fin.ext h
    rcases Nat.lt_or_ge ((resort stations rules keyv).indexOf st1)
        ((resort stations rules keyv).indexOf st2) with h | h
    · exact h
    · exfalso
      have hlt2 : (resort stations rules keyv).indexOf st2 <
          (resort stations rules keyv).indexOf st1 :=
        lt_of_le_of_ne h (fun hc => hidxne hc.symm)
      have hp := List.pairwise_iff_get.mp hsorted
        ⟨(resort stations rules keyv).indexOf st2, hi2⟩
        ⟨(resort stations rules keyv).indexOf st1, hi1⟩ hlt2
      rw [hget1, hget2] at hp
      exact hnotle hp
  · intro hqeq hsub
    have hle : resort_le rules keyv st1 st2 = true := by
      simp [resort_le, hreq, hqeq]
    exact List.pair_sublist_mergeSort (resort_le_trans rules keyv)
      (resort_le_total rules keyv) hle hsub

/-- Witness for the amended C6 at a concrete input: with keys `50.0`
and `100.0` (exact doubles for draw 100 at fillPriority 2 and 1), the
smaller-keyed station `A` sorts first. -/
theorem resort_key_order_witness :
    (resort ["A", "B"]
        (fun st => if st = "A" then { fill_priority := 2 }
                   else { fill_priority := 1 })
        (fun st => if st = "A" then (50 : ℚ) else 100)).indexOf "A" <
      (resort ["A", "B"]
        (fun st => if st = "A" then { fill_priority := 2 }
                   else { fill_priority := 1 })
        (fun st => if st = "A" then (50 : ℚ) else 100)).indexOf "B" :=
  (resort_key_order ["A", "B"]
    (fun st => if st = "A" then { fill_priority := 2 }
               else { fill_priority := 1 })
    (fun st => if st = "A" then (50 : ℚ) else 100) "A" "B"
    (by decide) (by decide) (by decide)).1 (by decide)

/-- `candidate_groups` only reads the rule of its own station. -/
theorem candidate_groups_rules_congr {rules rules' : String → StationRule}
    {st : String} (h : rules st = rules' st) (strict : Bool)
    (groups : List String) (σ : BuildState) (d : Nat) (used : List String) :
    candidate_groups rules strict groups σ st d used =
      candidate_groups rules' strict groups σ st d used := by
  unfold candidate_groups
  rw [h]

/-- `def_key` only reads the rule of its own station. -/
theorem def_key_rules_congr {rules rules' : String → StationRule}
    {st : String} (h : rules st = rules' st) (σ : BuildState) :
    ∀ g, def_key rules σ st g = def_key rules' σ st g := by
  intro g
  unfold def_key
  rw [h]

/-- `choose_group` only reads the rule of its own station. -/
theorem choose_group_rules_congr {rules rules' : String → StationRule}
    {st : String} (h : rules st = rules' st) (σ : BuildState)
    (cands : List String) :
    choose_group rules σ cands st = choose_group rules' σ cands st := by
  unfold choose_group
  cases cands with
  | nil => rfl
  | cons c cs =>
    simp only [def_key_rules_congr h]

/-- A station step only reads the rule of its own station. -/
theorem station_step_rules_congr {rules rules' : String → StationRule}
    {st : String} (h : rules st = rules' st) (strict : Bool)
    (groups : List String) (d s : Nat) (acc : BuildState × List String) :
    station_step rules strict groups d s acc st =
      station_step rules' strict groups d s acc st := by
  unfold station_step
  simp only [candidate_groups_rules_congr h, choose_group_rules_congr h]

/-- When every station in the order has a rule, the fallible station
fold succeeds and agrees with the total-rules fold. -/
theorem slot_foldE_eq (rulesO : String → Option StationRule)
    (rulesT : String → StationRule) (strict : Bool) (groups : List String)
    (d s : Nat) :
    ∀ (order : List String), (∀ st ∈ order, rulesO st = some (rulesT st)) →
      ∀ acc : BuildState × List String,
        order.foldl (station_stepE rulesO strict groups d s) (.ok acc) =
          .ok (order.foldl (station_step rulesT strict groups d s) acc) := by
  intro order
  induction order with
  | nil => intro _ acc; rfl
  | cons st rest ih =>
    intro h acc
    simp only [List.foldl_cons]
    have hst : rulesO st = some (rulesT st) := h st (List.mem_cons_self st rest)
    have hstep : station_stepE rulesO strict groups d s (.ok acc) st =
        .ok (station_step rulesT strict groups d s acc st) := by
      unfold station_stepE
      rw [hst]
      exact congrArg Except.ok
        (@station_step_rules_congr (fun _ => rulesT st) rulesT st rfl strict
          groups d s acc)
    rw [hstep]
    exact ih (fun st' hst' => h st' (List.mem_cons_of_mem st hst')) _

/-- When every station in the order has a rule, the fallible slot run
succeeds and agrees with the total-rules slot run. -/
theorem run_slotE_eq (rulesO : String → Option StationRule)
    (rulesT : String → StationRule) (strict : Bool) (groups : List String)
    (d : Nat) (order : List String)
    (h : ∀ st ∈ order, rulesO st = some (rulesT st)) (σ : BuildState)
    (s : Nat) :
    run_slotE rulesO strict groups d order (.ok σ) s =
      .ok (run_slot rulesT strict groups d order σ s) := by
  unfold run_slotE run_slot
  dsimp only
  rw [slot_foldE_eq rulesO rulesT strict groups d s order h (σ, [])]
  rfl

/-- When every station in the order has a rule, the fallible day run
succeeds and agrees with the total-rules day run. -/
theorem run_dayE_eq (rulesO : String → Option StationRule)
    (rulesT : String → StationRule) (strict : Bool) (groups : List String)
    (slots : Nat) (order : List String)
    (h : ∀ st ∈ order, rulesO st = some (rulesT st)) (σ : BuildState)
    (d : Nat) :
    run_dayE rulesO strict groups slots order (.ok σ) d =
      .ok (run_day rulesT strict groups slots order σ d) := by
  unfold run_dayE run_day
  induction (List.range slots) generalizing σ with
  | nil => rfl
  | cons s rest ih =>
    simp only [List.foldl_cons]
    rw [run_slotE_eq rulesO rulesT strict groups d order h σ s]
    exact ih _

/-- When every station of every day's order has a rule, `build_schedule`
with explicit dict lookups returns normally, with the total-rules
result. -/
theorem build_scheduleE_eq (groups : List String) (days slots : Nat)
    (rulesO : String → Option StationRule) (rulesT : String → StationRule)
    (strict : Bool) (orders : Nat → List String)
    (h : ∀ d, ∀ st ∈ orders d, rulesO st = some (rulesT st)) :
    build_scheduleE groups days slots rulesO strict orders =
      .ok (build_schedule groups days slots rulesT strict orders) := by
  unfold build_scheduleE build_schedule
  have key : ∀ (dl : List Nat) (σ : BuildState),
      dl.foldl (fun acc d => run_dayE rulesO strict groups slots (orders d) acc d)
          (.ok σ) =
        .ok (dl.foldl (fun σ' d => run_day rulesT strict groups slots (orders d) σ' d) σ) := by
    intro dl
    induction dl with
    | nil => intro σ; rfl
    | cons d rest ih =>
      intro σ
      simp only [List.foldl_cons]
      rw [run_dayE_eq rulesO rulesT strict groups slots (orders d) (h d) σ d]
      exact ih _
  exact key (List.range days) initState

/-- Claim C7: under the preconditions (every station has a rule; the
per-day orders range over the stations), `build_schedule` returns
normally — no exception is raised, for any `groups`, `days`, `slots`
and `strict` flag, feasible or not; infeasibility can only surface as
`None` cells in the returned grid. -/
theorem build_schedule_no_failure (groups stations : List String)
    (days slots : Nat) (rulesO : String → Option StationRule) (strict : Bool)
    (orders : Nat → List String)
    (hrules : ∀ st ∈ stations, (rulesO st).isSome = true)
    (horders : ∀ d, ∀ st ∈ orders d, st ∈ stations) :
    ∃ σ, build_scheduleE groups days slots rulesO strict orders = .ok σ := by
  refine ⟨build_schedule groups days slots (fun st => (rulesO st).getD {})
    strict orders, ?_⟩
  apply build_scheduleE_eq
  intro d st hst
  have hsome := hrules st (horders d st hst)
  cases hO : rulesO st with
  | none => simp [hO] at hsome
  | some r => simp [hO]

/-- Witness for C7 at a concrete infeasible input: one group, two
stations, both required, strict mode — the build still returns
normally. -/
theorem build_schedule_no_failure_witness :
    ∃ σ, build_scheduleE ["G1"] 1 1 (fun _ => some { required := true })
        true (fun _ => ["A", "B"]) = .ok σ :=
  build_schedule_no_failure ["G1"] ["A", "B"] 1 1
    (fun _ => some { required := true }) true (fun _ => ["A", "B"])
    (by decide) (fun _ st hst => hst)

/-- `count_total` only depends on the grid's values. -/
theorem count_total_congr (days slots : Nat) (stations : List String)
    {f f' : Nat → Nat → String → Option String}
    (h : ∀ d s st, f d s st = f' d s st) (g : String) :
    count_total days slots stations f g = count_total days slots stations f' g := by
  unfold count_total
  apply congrArg List.sum
  apply List.map_congr_left
  intro d _
  apply congrArg List.sum
  apply List.map_congr_left
  intro s _
  apply congrArg List.length
  apply List.filter_congr
  intro st _
  rw [h d s st]

/-- `count_station` only depends on the grid's values. -/
theorem count_station_congr (days slots : Nat)
    {f f' : Nat → Nat → String → Option String}
    (h : ∀ d s st, f d s st = f' d s st) (g st : String) :
    count_station days slots f g st = count_station days slots f' g st := by
  unfold count_station
  apply congrArg List.sum
  apply List.map_congr_left
  intro d _
  apply congrArg List.sum
  apply List.map_congr_left
  intro s _
  rw [h d s st]

/-- Changing a predicate at exactly one duplicate-free position, from
`false`, adds the new value's contribution to the filter length. -/
theorem filter_length_update : ∀ (l : List String), l.Nodup → ∀ {a : String},
    a ∈ l → ∀ {p q : String → Bool}, (∀ x, x ≠ a → p x = q x) → p a = false →
    (l.filter q).length = (l.filter p).length + (if q a then 1 else 0) := by
  intro l
  induction l with
  | nil => intro _ a ha; cases ha
  | cons x xs ih =>
    intro hnd a ha p q hagree hpa
    have hnd' := List.nodup_cons.mp hnd
    rcases List.mem_cons.mp ha with rfl | ha'
    · have hfeq : xs.filter p = xs.filter q :=
        List.filter_congr (fun y hy => hagree y (fun hya => hnd'.1 (hya ▸ hy)))
      rw [List.filter_cons, List.filter_cons, hpa, ← hfeq]
      by_cases hq : q a = true
      · rw [hq]
        simp
      · simp only [Bool.not_eq_true] at hq
        rw [hq]
        simp
    · have hxa : x ≠ a := fun h => hnd'.1 (h ▸ ha')
      have hpq : p x = q x := hagree x hxa
      rw [List.filter_cons, List.filter_cons, ← hpq]
      by_cases hp : p x = true
      · rw [hp]
        simp only [if_true, List.length_cons]
        rw [ih hnd'.2 ha' hagree hpa]
        omega
      · simp only [Bool.not_eq_true] at hp
        rw [hp]
        simp only [Bool.false_eq_true, if_false]
        exact ih hnd'.2 ha' hagree hpa

/-- Writing a previously-`None` in-range cell adjusts `count_total` by
exactly the new value's contribution. -/
theorem count_total_upd (days slots : Nat) (stations : List String)
    (hnd : stations.Nodup) {f : Nat → Nat → String → Option String}
    {d s : Nat} {st : String} (hd : d < days) (hs : s < slots)
    (hst : st ∈ stations) (hold : f d s st = none) (v : Option String)
    (g : String) :
    count_total days slots stations (updGrid f d s st v) g =
      count_total days slots stations f g + (if v = some g then 1 else 0) := by
  unfold count_total
  have hcell : ∀ d' s' st', ¬(d' = d ∧ s' = s ∧ st' = st) →
      updGrid f d s st v d' s' st' = f d' s' st' := by
    intro d' s' st' h
    exact if_neg h
  have hnewcell : updGrid f d s st v d s st = v := if_pos ⟨rfl, rfl, rfl⟩
  have hslot : (stations.filter
        (fun st' => updGrid f d s st v d s st' == some g)).length =
      (stations.filter (fun st' => f d s st' == some g)).length +
        (if v = some g then 1 else 0) := by
    have hupdval : ((fun st' => updGrid f d s st v d s st' == some g) st) =
        decide (v = some g) := by
      show (updGrid f d s st v d s st == some g) = decide (v = some g)
      rw [hnewcell]
      by_cases hv : v = some g
      · simp [hv]
      · simp [hv]
    have h := @filter_length_update stations hnd st hst
      (fun st' => f d s st' == some g)
      (fun st' => updGrid f d s st v d s st' == some g)
      (fun x hx => by
        show (f d s x == some g) = (updGrid f d s st v d s x == some g)
        rw [hcell d s x (fun hc => hx hc.2.2)])
      (by
        show (f d s st == some g) = false
        simp [hold])
    rw [h, hupdval]
    by_cases hv : v = some g
    · simp [hv]
    · simp [hv]
  have hinner : ((List.range slots).map (fun s' =>
      (stations.filter (fun st' => updGrid f d s st v d s' st' == some g)).length)).sum =
      ((List.range slots).map (fun s' =>
        (stations.filter (fun st' => f d s' st' == some g)).length)).sum +
        (if v = some g then 1 else 0) := by
    have hupd := sum_range_update slots s hs
      (fun s' => (stations.filter (fun st' => f d s' st' == some g)).length)
      (fun s' => (stations.filter
        (fun st' => updGrid f d s st v d s' st' == some g)).length)
      (fun s' hs' => by
        show (stations.filter
            (fun st' => updGrid f d s st v d s' st' == some g)).length =
          (stations.filter (fun st' => f d s' st' == some g)).length
        apply congrArg List.length
        apply List.filter_congr
        intro st' _
        show (updGrid f d s st v d s' st' == some g) = (f d s' st' == some g)
        rw [hcell d s' st' (fun hc => hs' hc.2.1)])
    simp only at hupd hslot ⊢
    omega
  have houter := sum_range_update days d hd
    (fun d' => ((List.range slots).map (fun s' =>
      (stations.filter (fun st' => f d' s' st' == some g)).length)).sum)
    (fun d' => ((List.range slots).map (fun s' =>
      (stations.filter (fun st' => updGrid f d s st v d' s' st' == some g)).length)).sum)
    (fun d' hd' => by
      show ((List.range slots).map (fun s' =>
          (stations.filter (fun st' => updGrid f d s st v d' s' st' == some g)).length)).sum =
        ((List.range slots).map (fun s' =>
          (stations.filter (fun st' => f d' s' st' == some g)).length)).sum
      apply congrArg List.sum
      apply List.map_congr_left
      intro s' _
      apply congrArg List.length
      apply List.filter_congr
      intro st' _
      show (updGrid f d s st v d' s' st' == some g) = (f d' s' st' == some g)
      rw [hcell d' s' st' (fun hc => hd' hc.1)])
  simp only at houter hinner ⊢
  omega

/-- Writing a previously-`None` in-range cell adjusts `count_station` by
exactly the new value's contribution at that station. -/
theorem count_station_upd (days slots : Nat)
    {f : Nat → Nat → String → Option String} {d s : Nat} {st : String}
    (hd : d < days) (hs : s < slots) (hold : f d s st = none)
    (v : Option String) (g st0 : String) :
    count_station days slots (updGrid f d s st v) g st0 =
      count_station days slots f g st0 +
        (if st0 = st ∧ v = some g then 1 else 0) := by
  unfold count_station
  have hcell : ∀ d' s' st', ¬(d' = d ∧ s' = s ∧ st' = st) →
      updGrid f d s st v d' s' st' = f d' s' st' := by
    intro d' s' st' h
    exact if_neg h
  by_cases hst0 : st0 = st
  · subst hst0
    have hnewcell : updGrid f d s st0 v d s st0 = v := if_pos ⟨rfl, rfl, rfl⟩
    have hinner : ((List.range slots).map (fun s' =>
        if updGrid f d s st0 v d s' st0 == some g then 1 else 0)).sum =
        ((List.range slots).map (fun s' =>
          if f d s' st0 == some g then 1 else 0)).sum +
          (if v = some g then 1 else 0) := by
      have hupd := sum_range_update slots s hs
        (fun s' => if f d s' st0 == some g then 1 else 0)
        (fun s' => if updGrid f d s st0 v d s' st0 == some g then 1 else 0)
        (fun s' hs' => by
          show (if updGrid f d s st0 v d s' st0 == some g then 1 else 0) =
            (if f d s' st0 == some g then 1 else 0)
          rw [hcell d s' st0 (fun hc => hs' hc.2.1)])
      have hnew : (if updGrid f d s st0 v d s st0 == some g then 1 else 0) =
          (if v = some g then 1 else 0) := by
        rw [hnewcell]
        by_cases hv : v = some g
        · simp [hv]
        · simp [hv]
      have hzero : (if f d s st0 == some g then 1 else 0) = 0 := by
        simp [hold]
      simp only at hupd hnew hzero ⊢
      omega
    have houter := sum_range_update days d hd
      (fun d' => ((List.range slots).map (fun s' =>
        if f d' s' st0 == some g then 1 else 0)).sum)
      (fun d' => ((List.range slots).map (fun s' =>
        if updGrid f d s st0 v d' s' st0 == some g then 1 else 0)).sum)
      (fun d' hd' => by
        show ((List.range slots).map (fun s' =>
            if updGrid f d s st0 v d' s' st0 == some g then 1 else 0)).sum =
          ((List.range slots).map (fun s' =>
            if f d' s' st0 == some g then 1 else 0)).sum
        apply congrArg List.sum
        apply List.map_congr_left
        intro s' _
        show (if updGrid f d s st0 v d' s' st0 == some g then 1 else 0) =
          (if f d' s' st0 == some g then 1 else 0)
        rw [hcell d' s' st0 (fun hc => hd' hc.1)])
    simp only [eq_self_iff_true, true_and]
    simp only at houter hinner ⊢
    omega
  · rw [if_neg (fun hc => hst0 hc.1)]
    have heq : ∀ d' s', updGrid f d s st v d' s' st0 = f d' s' st0 := by
      intro d' s'
      exact hcell d' s' st0 (fun hc => hst0 hc.2.2)
    simp only [heq, Nat.add_zero]

/-- Looking a key up in the keys-to-values map underlying the returned
totals dict. -/
theorem lookupD_map (total : String → Nat) :
    ∀ (keys : List String) (g : String),
      lookupD (keys.map (fun k => (k, total k))) g =
        if g ∈ keys then total g else 0 := by
  intro keys
  induction keys with
  | nil => intro g; simp [lookupD]
  | cons k ks ih =>
    intro g
    by_cases hkg : k = g
    · subst hkg
      unfold lookupD
      rw [List.map_cons, List.find?_cons_of_pos _ (by simp)]
      simp
    · unfold lookupD
      rw [List.map_cons, List.find?_cons_of_neg _ (by simp [hkg])]
      have := ih g
      unfold lookupD at this
      rw [this]
      have hmem : (g ∈ k :: ks) ↔ (g ∈ ks) := by
        rw [List.mem_cons]
        constructor
        · rintro (rfl | h)
          · exact absurd rfl hkg
          · exact h
        · exact Or.inr
      by_cases hg : g ∈ ks
      · rw [if_pos hg, if_pos (hmem.mpr hg)]
      · rw [if_neg hg, if_neg (fun h => hg (hmem.mp h))]

/-- Station fold of one slot preserves "the counters match the grid":
each assignment writes a previously-empty in-range cell and bumps the
matching counters. -/
theorem slot_fold_counts (rules : String → StationRule) (strict : Bool)
    (groups : List String) (days slots : Nat) (stations : List String)
    (hnd : stations.Nodup) (d s : Nat) (hd : d < days) (hs : s < slots) :
    ∀ (order : List String), order.Nodup → (∀ st ∈ order, st ∈ stations) →
    ∀ (σ : BuildState) (used : List String),
      (∀ st ∈ order, σ.grid d s st = none) →
      (∀ g, σ.total g = count_total days slots stations σ.grid g) →
      (∀ g st', σ.scw g st' = count_station days slots σ.grid g st') →
      (∀ g, ((order.foldl (station_step rules strict groups d s) (σ, used)).1).total g =
          count_total days slots stations
            ((order.foldl (station_step rules strict groups d s) (σ, used)).1).grid g) ∧
        (∀ g st', ((order.foldl (station_step rules strict groups d s) (σ, used)).1).scw g st' =
          count_station days slots
            ((order.foldl (station_step rules strict groups d s) (σ, used)).1).grid g st') := by
  intro order
  induction order with
  | nil =>
    intro _ _ σ used _ ht hsw
    exact ⟨ht, hsw⟩
  | cons st0 rest ih =>
    intro hnodup hsub σ used hnone ht hsw
    simp only [List.foldl_cons]
    have hnodup' := List.nodup_cons.mp hnodup
    have hst0stations : st0 ∈ stations := hsub st0 (List.mem_cons_self st0 rest)
    have hold : σ.grid d s st0 = none := hnone st0 (List.mem_cons_self st0 rest)
    rcases station_step_cases rules strict groups d s σ used st0 with
      ⟨g0, hg0, heq⟩ | heq
    · rw [heq]
      apply ih hnodup'.2 (fun st' h => hsub st' (List.mem_cons_of_mem st0 h))
      · intro st' hst'
        have hne : st' ≠ st0 := fun h => hnodup'.1 (h ▸ hst')
        simp only [updGrid_apply, eq_self_iff_true, true_and, if_neg hne]
        exact hnone st' (List.mem_cons_of_mem st0 hst')
      · intro g
        simp only
        rw [count_total_upd days slots stations hnd hd hs hst0stations hold
          (some g0) g]
        by_cases hgg : g = g0
        · subst hgg
          rw [if_pos rfl, if_pos rfl, ht g]
        · rw [if_neg hgg,
            if_neg (fun hc : some g0 = some g => hgg (Option.some.inj hc).symm),
            ht g]
          omega
      · intro g st'
        simp only
        rw [count_station_upd days slots hd hs hold (some g0) g st']
        by_cases hcond : g = g0 ∧ st' = st0
        · rw [if_pos hcond, if_pos ⟨hcond.2, by rw [hcond.1]⟩, hsw g st']
        · rw [if_neg hcond,
            if_neg (fun hc : st' = st0 ∧ some g0 = some g =>
              hcond ⟨(Option.some.inj hc.2).symm, hc.1⟩),
            hsw g st']
          omega
    · rw [heq]
      have hptwise : ∀ d' s' st',
          updGrid σ.grid d s st0 none d' s' st' = σ.grid d' s' st' := by
        intro d' s' st'
        simp only [updGrid_apply]
        by_cases hc : d' = d ∧ s' = s ∧ st' = st0
        · rw [if_pos hc, hc.1, hc.2.1, hc.2.2, hold]
        · rw [if_neg hc]
      apply ih hnodup'.2 (fun st' h => hsub st' (List.mem_cons_of_mem st0 h))
      · intro st' hst'
        simp only
        rw [hptwise]
        exact hnone st' (List.mem_cons_of_mem st0 hst')
      · intro g
        simp only
        rw [count_total_congr days slots stations hptwise g]
        exact ht g
      · intro g st'
        simp only
        rw [count_station_congr days slots hptwise g st']
        exact hsw g st'

/-- Slot fold of one day preserves "the counters match the grid". -/
theorem slots_fold_counts (rules : String → StationRule) (strict : Bool)
    (groups : List String) (days slots : Nat) (stations : List String)
    (hnd : stations.Nodup) (d : Nat) (hd : d < days) (order : List String)
    (hordnd : order.Nodup) (hordsub : ∀ st ∈ order, st ∈ stations) :
    ∀ (sl : List Nat), sl.Nodup → (∀ s ∈ sl, s < slots) → ∀ σ : BuildState,
      (∀ s ∈ sl, ∀ st, σ.grid d s st = none) →
      (∀ g, σ.total g = count_total days slots stations σ.grid g) →
      (∀ g st', σ.scw g st' = count_station days slots σ.grid g st') →
      (∀ g, (sl.foldl (run_slot rules strict groups d order) σ).total g =
          count_total days slots stations
            (sl.foldl (run_slot rules strict groups d order) σ).grid g) ∧
        (∀ g st', (sl.foldl (run_slot rules strict groups d order) σ).scw g st' =
          count_station days slots
            (sl.foldl (run_slot rules strict groups d order) σ).grid g st') := by
  intro sl
  induction sl with
  | nil =>
    intro _ _ σ _ ht hsw
    exact ⟨ht, hsw⟩
  | cons s0 tl ih =>
    intro hslnd hslbound σ hnone ht hsw
    simp only [List.foldl_cons]
    have hslnd' := List.nodup_cons.mp hslnd
    have hs0 : s0 < slots := hslbound s0 (List.mem_cons_self s0 tl)
    have hslot := slot_fold_counts rules strict groups days slots stations hnd
      d s0 hd hs0 order hordnd hordsub σ []
      (fun st _ => hnone s0 (List.mem_cons_self s0 tl) st) ht hsw
    apply ih hslnd'.2 (fun s' h => hslbound s' (List.mem_cons_of_mem s0 h))
    · intro s' hs' st
      have hne : ¬(d = d ∧ s' = s0) := fun hc => hslnd'.1 (hc.2 ▸ hs')
      rw [run_slot_grid_frame rules strict groups d order σ s0 d s' st hne]
      exact hnone s' (List.mem_cons_of_mem s0 hs') st
    · exact hslot.1
    · exact hslot.2

/-- Day fold preserves "the counters match the grid". -/
theorem days_fold_counts (rules : String → StationRule) (strict : Bool)
    (groups : List String) (days slots : Nat) (stations : List String)
    (orders : Nat → List String) (hnd : stations.Nodup)
    (hord : ∀ d, (orders d).Perm stations) :
    ∀ (dl : List Nat), dl.Nodup → (∀ d ∈ dl, d < days) → ∀ σ : BuildState,
      (∀ d ∈ dl, ∀ s st, σ.grid d s st = none) →
      (∀ g, σ.total g = count_total days slots stations σ.grid g) →
      (∀ g st', σ.scw g st' = count_station days slots σ.grid g st') →
      (∀ g, (dl.foldl (fun σ' d' =>
          run_day rules strict groups slots (orders d') σ' d') σ).total g =
          count_total days slots stations
            (dl.foldl (fun σ' d' =>
              run_day rules strict groups slots (orders d') σ' d') σ).grid g) ∧
        (∀ g st', (dl.foldl (fun σ' d' =>
          run_day rules strict groups slots (orders d') σ' d') σ).scw g st' =
          count_station days slots
            (dl.foldl (fun σ' d' =>
              run_day rules strict groups slots (orders d') σ' d') σ).grid g st') := by
  intro dl
  induction dl with
  | nil =>
    intro _ _ σ _ ht hsw
    exact ⟨ht, hsw⟩
  | cons d0 tl ih =>
    intro hdlnd hdlbound σ hnone ht hsw
    simp only [List.foldl_cons]
    have hdlnd' := List.nodup_cons.mp hdlnd
    have hd0 : d0 < days := hdlbound d0 (List.mem_cons_self d0 tl)
    have hday := slots_fold_counts rules strict groups days slots stations hnd
      d0 hd0 (orders d0) ((hord d0).nodup_iff.mpr hnd)
      (fun st hst => (hord d0).mem_iff.mp hst)
      (List.range slots) (List.nodup_range slots)
      (fun s hs => List.mem_range.mp hs) σ
      (fun s _ st => hnone d0 (List.mem_cons_self d0 tl) s st) ht hsw
    apply ih hdlnd'.2 (fun d' h => hdlbound d' (List.mem_cons_of_mem d0 h))
    · intro d' hd' s st
      rw [run_day_grid_frame rules strict groups slots (orders d0) σ d0 d' s st
        (fun hc => hdlnd'.1 (hc ▸ hd'))]
      exact hnone d' (List.mem_cons_of_mem d0 hd') s st
    · exact hday.1
    · exact hday.2

/-- The empty grid has zero total count. -/
theorem count_total_none (days slots : Nat) (stations : List String)
    (g : String) :
    count_total days slots stations (fun _ _ _ => none) g = 0 := by
  simp [count_total]

/-- The empty grid has zero per-station count. -/
theorem count_station_none (days slots : Nat) (g st : String) :
    count_station days slots (fun _ _ _ => none) g st = 0 := by
  simp [count_station]

/-- Claim C8: the statistics returned by `build_schedule` are exactly
the counts derivable from the returned grid — the totals dict value (0
for an absent key) counts the cells assigned to the group, and the
weekly per-station counter counts the cells at that station assigned to
the group. Preconditions: the stations are distinct and the per-day
orders are permutations of them. -/
theorem build_schedule_statistics (groups : List String) (days slots : Nat)
    (rules : String → StationRule) (strict : Bool) (orders : Nat → List String)
    (stations : List String) (hnd : stations.Nodup)
    (hord : ∀ d, (orders d).Perm stations) :
    ∀ g, lookupD (totals_out
        (build_schedule groups days slots rules strict orders)) g =
        count_total days slots stations
          (build_schedule groups days slots rules strict orders).grid g ∧
      ∀ st, (build_schedule groups days slots rules strict orders).scw g st =
        count_station days slots
          (build_schedule groups days slots rules strict orders).grid g st := by
  have hcounts := days_fold_counts rules strict groups days slots stations
    orders hnd hord (List.range days) (List.nodup_range days)
    (fun d h => List.mem_range.mp h) initState (fun _ _ _ _ => rfl)
    (fun g => (count_total_none days slots stations g).symm)
    (fun g st => (count_station_none days slots g st).symm)
  have hcounts2 : (∀ g,
      (build_schedule groups days slots rules strict orders).total g =
        count_total days slots stations
          (build_schedule groups days slots rules strict orders).grid g) ∧
      (∀ g st', (build_schedule groups days slots rules strict orders).scw g st' =
        count_station days slots
          (build_schedule groups days slots rules strict orders).grid g st') :=
    hcounts
  have hk := build_schedule_keysInv groups days slots rules strict orders
  intro g
  constructor
  · unfold totals_out
    rw [lookupD_map]
    by_cases hmem : g ∈ (build_schedule groups days slots rules strict
        orders).totalKeys
    · rw [if_pos hmem]
      exact hcounts2.1 g
    · rw [if_neg hmem]
      have hzero : (build_schedule groups days slots rules strict
          orders).total g = 0 := by
        by_contra h
        exact hmem (hk.2 g (Nat.one_le_iff_ne_zero.mpr h))
      rw [← hcounts2.1 g, hzero]
  · intro st
    exact hcounts2.2 g st

/-- Witness for C8 at a concrete input. -/
theorem build_schedule_statistics_witness :
    lookupD (totals_out
        (build_schedule ["G1"] 1 1 (fun _ => {}) false (fun _ => ["A"]))) "G1" =
        count_total 1 1 ["A"]
          (build_schedule ["G1"] 1 1 (fun _ => {}) false
            (fun _ => ["A"])).grid "G1" ∧
      (build_schedule ["G1"] 1 1 (fun _ => {}) false
          (fun _ => ["A"])).scw "G1" "A" =
        count_station 1 1
          (build_schedule ["G1"] 1 1 (fun _ => {}) false (fun _ => ["A"])).grid
          "G1" "A" :=
  ⟨(build_schedule_statistics ["G1"] 1 1 (fun _ => {}) false (fun _ => ["A"])
      ["A"] (by decide) (fun _ => List.Perm.refl _) "G1").1,
   (build_schedule_statistics ["G1"] 1 1 (fun _ => {}) false (fun _ => ["A"])
      ["A"] (by decide) (fun _ => List.Perm.refl _) "G1").2 "A"⟩

/-- A deduplicated list has full length exactly when the list had no
duplicates (`len(set(x)) == len(x)`). -/
theorem dedup_length_eq_iff {l : List String} :
    l.dedup.length = l.length ↔ l.Nodup := by
  constructor
  · intro h
    have hsub : l.dedup.Sublist l := List.dedup_sublist l
    have : l.dedup = l := hsub.eq_of_length h
    rw [← this]
    exact List.nodup_dedup l
  · intro h
    rw [List.dedup_eq_self.mpr h]

/-- Truthiness projection: a truthy value was a real, non-empty group. -/
theorem truthy_eq_some {o : Option String} {g : String}
    (h : truthy o = some g) : o = some g ∧ g ≠ "" := by
  cases o with
  | none => cases h
  | some g' =>
    simp only [truthy] at h
    by_cases hg : g' = ""
    · rw [if_pos hg] at h
      cases h
    · rw [if_neg hg] at h
      cases h
      exact ⟨rfl, hg⟩

/-- On a well-formed grid (groups non-empty strings), truthiness is the
identity on cells. -/
theorem truthy_cell (schedule : List (List (String → Option String)))
    (groups : List String)
    (hwf : ∀ d s st g, cellAt schedule d s st = some g → g ∈ groups ∧ g ≠ "")
    (d s : Nat) (st : String) :
    truthy (cellAt schedule d s st) = cellAt schedule d s st := by
  cases hc : cellAt schedule d s st with
  | none => rfl
  | some g =>
    have hne := (hwf d s st g hc).2
    simp [truthy, hne]

/-- The first validator check passes exactly on slot-unique grids. -/
theorem check1_eq_none_iff (schedule : List (List (String → Option String)))
    (groups stations : List String)
    (hwf : ∀ d s st g, cellAt schedule d s st = some g → g ∈ groups ∧ g ≠ "") :
    check1 schedule stations = none ↔ SlotUniqueSpec schedule stations := by
  unfold check1 SlotUniqueSpec
  simp only [List.findSome?_eq_none_iff, List.mem_range]
  constructor
  · intro h d hd s hs
    have h' := h d hd s hs
    by_cases hdup : ((stations.filterMap
        (fun st => truthy (cellAt schedule d s st))).dedup.length ≠
        (stations.filterMap (fun st => truthy (cellAt schedule d s st))).length)
    · rw [if_pos hdup] at h'
      cases h'
    · rw [Decidable.not_not] at hdup
      have hnd := dedup_length_eq_iff.mp hdup
      have heq : stations.filterMap (fun st => truthy (cellAt schedule d s st)) =
          stations.filterMap (fun st => cellAt schedule d s st) :=
        List.filterMap_congr (fun st _ => truthy_cell schedule groups hwf d s st)
      rw [← heq]
      exact hnd
  · intro h d hd s hs
    have heq : stations.filterMap (fun st => truthy (cellAt schedule d s st)) =
        stations.filterMap (fun st => cellAt schedule d s st) :=
      List.filterMap_congr (fun st _ => truthy_cell schedule groups hwf d s st)
    rw [if_neg]
    rw [Decidable.not_not, heq]
    exact dedup_length_eq_iff.mpr (h d hd s hs)

/-- The third validator check passes exactly on required-complete
grids. -/
theorem check3_eq_none_iff (schedule : List (List (String → Option String)))
    (stations : List String) (rules : String → StationRule) :
    check3 schedule stations rules = none ↔
      RequiredCompleteSpec schedule stations rules := by
  unfold check3 RequiredCompleteSpec
  simp only [List.findSome?_eq_none_iff, List.mem_range]
  constructor
  · intro h d hd s hs st hst hreq hcell
    have h' := h d hd s hs st hst
    rw [if_pos] at h'
    · cases h'
    · rw [hreq, hcell]
      rfl
  · intro h d hd s hs st hst
    rw [if_neg]
    intro hc
    rw [Bool.and_eq_true] at hc
    exact h d hd s hs st hst hc.1 (Option.isNone_iff_eq_none.mp hc.2)

/-- Counting the matches of a single key in a duplicate-free list. -/
theorem countP_eq_single (l : List String) (hnd : l.Nodup) {a : String}
    (ha : a ∈ l) (q : String → Bool) :
    l.countP (fun x => x == a && q x) = if q a then 1 else 0 := by
  induction l with
  | nil => cases ha
  | cons x xs ih =>
    have hnd' := List.nodup_cons.mp hnd
    rw [List.countP_cons]
    rcases List.mem_cons.mp ha with rfl | ha'
    · have hzero : xs.countP (fun x => x == a && q x) = 0 := by
        rw [List.countP_eq_zero]
        intro y hy
        have : (y == a) = false := by
          simp only [beq_eq_false_iff_ne, ne_eq]
          intro hya
          exact hnd'.1 (hya ▸ hy)
        simp [this]
      rw [hzero]
      simp
    · have hxa : (x == a) = false := by
        simp only [beq_eq_false_iff_ne, ne_eq]
        intro hya
        exact hnd'.1 (hya ▸ ha')
      rw [ih hnd'.2 ha']
      simp [hxa]

/-- A sum of indicators over a list is a `countP`. -/
theorem sum_map_ite_eq_countP (C : Nat → Bool) :
    ∀ l : List Nat, (l.map (fun s => if C s then 1 else 0)).sum = l.countP C := by
  intro l
  induction l with
  | nil => simp
  | cons x xs ih =>
    rw [List.map_cons, List.sum_cons, List.countP_cons, ih]
    omega

/-- The occurrence count over one day's slot-major `(slot, station)`
pair list, for a station of the station list. -/
theorem countP_pairs_flatten (stations : List String) (hnds : stations.Nodup)
    (slots : Nat) (q : Nat → String → Bool) (st : String) (hst : st ∈ stations) :
    ((((List.range slots).map (fun s =>
        stations.map (fun st' => (s, st')))).flatten).countP
      (fun p => p.2 == st && q p.1 p.2)) =
      (List.range slots).countP (fun s => q s st) := by
  rw [List.countP_flatten, List.map_map]
  have hrow : ∀ s : Nat, ((stations.map (fun st' => (s, st'))).countP
      (fun p => p.2 == st && q p.1 p.2)) = (if q s st then 1 else 0) := by
    intro s
    rw [List.countP_map]
    have : ((fun p : Nat × String => p.2 == st && q p.1 p.2) ∘
        (fun st' => (s, st'))) = (fun st' => st' == st && q s st') := rfl
    rw [this]
    exact countP_eq_single stations hnds hst (q s)
  have hmapeq : (List.range slots).map ((fun l => l.countP
      (fun p : Nat × String => p.2 == st && q p.1 p.2)) ∘
      (fun s => stations.map (fun st' => (s, st')))) =
      (List.range slots).map (fun s => if q s st then 1 else 0) :=
    List.map_congr_left (fun s _ => hrow s)
  rw [hmapeq, sum_map_ite_eq_countP]

/-- The stateful scan of the second check returns `None` exactly when no
`(group, station)` pair's running count can reach two. -/
theorem check2Go_eq_none_iff (getCell : Nat → String → Option String)
    (groups : List String) (d : Nat) :
    ∀ (ps : List (Nat × String)) (counts : String → String → Nat),
      (∀ p ∈ ps, ∀ g : String, truthy (getCell p.1 p.2) = some g → g ∈ groups) →
      (∀ g st, counts g st ≤ 1) →
      (check2Go getCell groups d counts ps = none ↔
        ∀ g st, counts g st + ps.countP
          (fun p => p.2 == st && truthy (getCell p.1 p.2) == some g) ≤ 1) := by
  intro ps
  induction ps with
  | nil =>
    intro counts _ hbound
    simp only [check2Go, List.countP_nil, Nat.add_zero]
    constructor
    · intro _ g st
      exact hbound g st
    · intro _
      trivial
  | cons p rest ih =>
    obtain ⟨s, st0⟩ := p
    intro counts hall hbound
    have hallrest : ∀ p ∈ rest, ∀ g : String,
        truthy (getCell p.1 p.2) = some g → g ∈ groups :=
      fun p hp => hall p (List.mem_cons_of_mem _ hp)
    cases hc : truthy (getCell s st0) with
    | none =>
      have hstep : check2Go getCell groups d counts ((s, st0) :: rest) =
          check2Go getCell groups d counts rest := by
        simp only [check2Go, hc]
      have hcond : ((s, st0).2 == st0 → True) := fun _ => trivial
      rw [hstep, ih counts hallrest hbound]
      have hzero : ∀ g st : String, ((s, st0).2 == st &&
          truthy (getCell (s, st0).1 (s, st0).2) == some g) = false := by
        intro g st
        simp [hc]
      constructor
      · intro h g st
        rw [List.countP_cons, hzero g st]
        simpa using h g st
      · intro h g st
        have h' := h g st
        rw [List.countP_cons, hzero g st] at h'
        simpa using h'
    | some g0 =>
      have hg0 : g0 ∈ groups := hall (s, st0) (List.mem_cons_self _ _) g0 hc
      by_cases hcnt : counts g0 st0 + 1 > 1
      · have hstep : check2Go getCell groups d counts ((s, st0) :: rest) =
            some (.dayStationDup g0 st0 d) := by
          simp only [check2Go, hc]
          rw [if_pos hg0, if_pos hcnt]
        rw [hstep]
        have hone : ((s, st0).2 == st0 &&
            truthy (getCell (s, st0).1 (s, st0).2) == some g0) = true := by
          simp [hc]
        constructor
        · intro h
          cases h
        · intro h
          exfalso
          have h' := h g0 st0
          rw [List.countP_cons, hone] at h'
          simp only [if_true] at h'
          omega
      · have h0 : counts g0 st0 = 0 := by omega
        have hstep : check2Go getCell groups d counts ((s, st0) :: rest) =
            check2Go getCell groups d
              (fun g' st' => if g' = g0 ∧ st' = st0 then counts g' st' + 1
                else counts g' st') rest := by
          simp only [check2Go, hc]
          rw [if_pos hg0, if_neg hcnt]
        have hbound' : ∀ g st, (if g = g0 ∧ st = st0 then counts g st + 1
            else counts g st) ≤ 1 := by
          intro g st
          by_cases hh : g = g0 ∧ st = st0
          · rw [if_pos hh, hh.1, hh.2]
            omega
          · rw [if_neg hh]
            exact hbound g st
        have hcondtrue : ∀ g st : String, g = g0 → st = st0 →
            ((s, st0).2 == st && truthy (getCell (s, st0).1 (s, st0).2) ==
              some g) = true := by
          intro g st hg hst
          simp [hc, hg, hst]
        have hcondfalse : ∀ g st : String, ¬(g = g0 ∧ st = st0) →
            ((s, st0).2 == st && truthy (getCell (s, st0).1 (s, st0).2) ==
              some g) = false := by
          intro g st hh
          by_cases hst : st0 = st
          · have hgg : ¬ g = g0 := fun hgg => hh ⟨hgg, hst.symm⟩
            subst hst
            simp [hc]
            exact fun h => hgg h.symm
          · simp [hc, hst]
        rw [hstep, ih _ hallrest hbound']
        constructor
        · intro h g st
          have h' := h g st
          rw [List.countP_cons]
          by_cases hh : g = g0 ∧ st = st0
          · rw [if_pos hh] at h'
            rw [hcondtrue g st hh.1 hh.2]
            simp only [if_true]
            omega
          · rw [if_neg hh] at h'
            rw [hcondfalse g st hh]
            simpa using h'
        · intro h g st
          have h' := h g st
          rw [List.countP_cons] at h'
          by_cases hh : g = g0 ∧ st = st0
          · rw [if_pos hh]
            rw [hcondtrue g st hh.1 hh.2] at h'
            simp only [if_true] at h'
            omega
          · rw [if_neg hh]
            rw [hcondfalse g st hh] at h'
            simpa using h'

/-- Every pair scanned by the second check carries a station of the
station list. -/
theorem pairs_mem_station {slots : Nat} {stations : List String}
    {p : Nat × String}
    (hp : p ∈ ((List.range slots).map
      (fun s => stations.map (fun st' => (s, st')))).flatten) :
    p.2 ∈ stations := by
  rcases List.mem_flatten.mp hp with ⟨row, hrow, hprow⟩
  rcases List.mem_map.mp hrow with ⟨s, _, rfl⟩
  rcases List.mem_map.mp hprow with ⟨st', hst', rfl⟩
  exact hst'

/-- The second validator check passes exactly on day-station-unique
grids. -/
theorem check2_eq_none_iff (schedule : List (List (String → Option String)))
    (groups stations : List String) (hnds : stations.Nodup)
    (hwf : ∀ d s st g, cellAt schedule d s st = some g → g ∈ groups ∧ g ≠ "") :
    check2 schedule groups stations = none ↔
      DayStationUniqueSpec schedule stations := by
  unfold check2 DayStationUniqueSpec
  simp only [List.findSome?_eq_none_iff, List.mem_range]
  constructor
  · intro h d hd st hst g
    have h2 := (check2Go_eq_none_iff (fun s st => cellAt schedule d s st)
      groups d
      (((List.range (schedule.headD []).length).map
        (fun s => stations.map (fun st => (s, st)))).flatten)
      (fun _ _ => 0)
      (fun p _ g' hg' => (hwf d p.1 p.2 g' (truthy_eq_some hg').1).1)
      (fun _ _ => Nat.zero_le 1)).mp (h d hd) g st
    rw [countP_pairs_flatten stations hnds (schedule.headD []).length
      (fun s st' => truthy (cellAt schedule d s st') == some g) st hst] at h2
    have hcongr : (List.range (schedule.headD []).length).countP
        (fun s => truthy (cellAt schedule d s st) == some g) =
        (List.range (schedule.headD []).length).countP
          (fun s => cellAt schedule d s st == some g) :=
      List.countP_congr (fun s _ => by
        rw [truthy_cell schedule groups hwf d s st])
    rw [hcongr] at h2
    omega
  · intro h d hd
    rw [check2Go_eq_none_iff (fun s st => cellAt schedule d s st) groups d
      (((List.range (schedule.headD []).length).map
        (fun s => stations.map (fun st => (s, st)))).flatten)
      (fun _ _ => 0)
      (fun p _ g' hg' => (hwf d p.1 p.2 g' (truthy_eq_some hg').1).1)
      (fun _ _ => Nat.zero_le 1)]
    intro g st
    by_cases hst : st ∈ stations
    · rw [countP_pairs_flatten stations hnds (schedule.headD []).length
        (fun s st' => truthy (cellAt schedule d s st') == some g) st hst]
      have hcongr : (List.range (schedule.headD []).length).countP
          (fun s => truthy (cellAt schedule d s st) == some g) =
          (List.range (schedule.headD []).length).countP
            (fun s => cellAt schedule d s st == some g) :=
        List.countP_congr (fun s _ => by
          rw [truthy_cell schedule groups hwf d s st])
      rw [hcongr]
      have := h d hd st hst g
      omega
    · have hz : ((((List.range (schedule.headD []).length).map
          (fun s => stations.map (fun st => (s, st)))).flatten).countP
          (fun p => p.2 == st &&
            truthy (cellAt schedule d p.1 p.2) == some g)) = 0 := by
        rw [List.countP_eq_zero]
        intro p hp
        simp only [Bool.and_eq_true, beq_iff_eq, not_and]
        intro hpst _
        exact hst (hpst ▸ pairs_mem_station hp)
      rw [hz]
      omega

/-- Claim C4: `validate_schedule` returns normally on a (well-formed)
grid if and only if the grid satisfies per-slot uniqueness,
per-day-per-station uniqueness, and — only when `strict` is on —
required-station completeness. In particular weekly-max violations are
not re-checked: a grid passing these three checks is accepted whatever
its weekly counts. Well-formedness: every assigned group is a non-empty
string from `groups` (otherwise the Python code raises `KeyError` or
skips falsy cells); the station list is duplicate-free. -/
theorem validate_schedule_eq_none_iff
    (schedule : List (List (String → Option String)))
    (groups stations : List String) (rules : String → StationRule)
    (strict : Bool) (hnds : stations.Nodup)
    (hwf : ∀ d s st g, cellAt schedule d s st = some g → g ∈ groups ∧ g ≠ "") :
    validate_schedule schedule groups stations rules strict = none ↔
      (SlotUniqueSpec schedule stations ∧
        DayStationUniqueSpec schedule stations ∧
        (strict = true → RequiredCompleteSpec schedule stations rules)) := by
  unfold validate_schedule
  cases h1 : check1 schedule stations with
  | some v =>
    constructor
    · intro h
      cases h
    · rintro ⟨hs, -, -⟩
      exfalso
      have hn := (check1_eq_none_iff schedule groups stations hwf).mpr hs
      rw [h1] at hn
      cases hn
  | none =>
    cases h2 : check2 schedule groups stations with
    | some v =>
      constructor
      · intro h
        cases h
      · rintro ⟨-, hds, -⟩
        exfalso
        have hn := (check2_eq_none_iff schedule groups stations hnds hwf).mpr hds
        rw [h2] at hn
        cases hn
    | none =>
      have hs1 := (check1_eq_none_iff schedule groups stations hwf).mp h1
      have hs2 := (check2_eq_none_iff schedule groups stations hnds hwf).mp h2
      cases strict with
      | false =>
        simp only [Bool.false_eq_true, if_false]
        constructor
        · intro _
          exact ⟨hs1, hs2, fun h => h.elim⟩
        · intro _
          trivial
      | true =>
        simp only [if_true]
        rw [check3_eq_none_iff schedule stations rules]
        constructor
        · intro h3
          exact ⟨hs1, hs2, fun _ => h3⟩
        · rintro ⟨-, -, h3⟩
          exact h3 trivial

/-- Witness for C4 at a concrete input: a one-cell grid assigning `G1`
to station `A`; the validator accepts it and the three spec-side
properties hold. -/
theorem validate_schedule_eq_none_iff_witness :
    validate_schedule [[fun st => if st = "A" then some "G1" else none]]
        ["G1"] ["A"] (fun _ => {}) true = none ↔
      (SlotUniqueSpec [[fun st => if st = "A" then some "G1" else none]] ["A"] ∧
        DayStationUniqueSpec
          [[fun st => if st = "A" then some "G1" else none]] ["A"] ∧
        (true = true → RequiredCompleteSpec
          [[fun st => if st = "A" then some "G1" else none]] ["A"]
          (fun _ => {}))) :=
  validate_schedule_eq_none_iff
    [[fun st => if st = "A" then some "G1" else none]] ["G1"] ["A"]
    (fun _ => {}) true (by decide)
    (by
      intro d s st g h
      match d, s with
      | 0, 0 =>
        simp only [cellAt, List.getD_cons_zero] at h
        by_cases hA : st = "A"
        · rw [if_pos hA] at h
          cases h
          exact ⟨by simp, by decide⟩
        · rw [if_neg hA] at h
          cases h
      | 0, s + 1 =>
        simp only [cellAt, List.getD_cons_zero, List.getD_cons_succ,
          List.getD_nil] at h
        cases h
      | d + 1, s =>
        simp only [cellAt, List.getD_cons_succ, List.getD_nil] at h
        cases h)
